import Mathlib

set_option maxHeartbeats 1000000

/- Verification development for the KPI engine of the AI-Sales-Data-Analyst
   repository: column-name normalization, column/KPI matching, dependency
   resolution (Kahn), restricted formula evaluation and per-period
   (temporal) KPI calculation.

   The primary embedding follows backend/modules/KPI_Module/KPI_Engine.py
   (the engine used by the backend pipeline); the older near-duplicate
   modules/KPI_Module/KPI_Engine.py is embedded in namespace Legacy where
   the two differ.  Python dicts are modelled as association lists with
   insertion-order iteration and in-place update (dictInsert); in-place
   dataframe mutation is modelled by explicit state passing (functions
   that mutate their dataframe argument return the updated dataframe). -/

namespace KpiEngine

/-! ## Python character classes

ASCII letter/digit ranges as matched by the regexes a-zA-Z0-9 and A-Z in
normalize_column_name, and the set of characters matched by the regex
class backslash-s on a Python 3 str (which is Unicode-aware). -/

def isAsciiUpper (c : Char) : Bool := 65 ≤ c.toNat && c.toNat ≤ 90

def isAsciiLower (c : Char) : Bool := 97 ≤ c.toNat && c.toNat ≤ 122

def isAsciiAlpha (c : Char) : Bool := isAsciiUpper c || isAsciiLower c

def isAsciiDigit (c : Char) : Bool := 48 ≤ c.toNat && c.toNat ≤ 57

def isAlnumAscii (c : Char) : Bool := isAsciiAlpha c || isAsciiDigit c

/-- Code points of the characters matched by the whitespace class of the
re module on a Python 3 str: space, tab, newline, carriage return,
form feed, vertical tab, the file/group/record/unit separators, next
line, no-break space, and the Unicode space separators. -/
def pySpaceCodes : List Nat :=
  [32, 9, 10, 13, 12, 11, 28, 29, 30, 31, 133, 160, 5760,
   8192, 8193, 8194, 8195, 8196, 8197, 8198, 8199, 8200, 8201, 8202,
   8232, 8233, 8239, 8287, 12288]

def isPySpace (c : Char) : Bool := pySpaceCodes.contains c.toNat

/-- ASCII upper-casing as performed by str.title on ASCII letters. -/
def pyUpper (c : Char) : Char :=
  if isAsciiLower c then Char.ofNat (c.toNat - 32) else c

/-- ASCII lower-casing as performed by str.title on ASCII letters. -/
def pyLower (c : Char) : Char :=
  if isAsciiUpper c then Char.ofNat (c.toNat + 32) else c

/-! ## Column Normalizer

Embedding of normalize_column_name (identical in both copies of
KPI_Engine.py).  Steps, in source order: replace underscores and hyphens
with spaces; drop every character that is not an ASCII letter, an ASCII
digit or regex whitespace; if no space character is present, insert a
space before every uppercase letter that is not at position 0 (camel-case
split); Python str.title; collapse every maximal whitespace run to a
single space; strip. -/

def repUnderscoreHyphen (c : Char) : Char :=
  if c = '_' || c = '-' then ' ' else c

def keepAlnumSpace (c : Char) : Bool := isAlnumAscii c || isPySpace c

/-- The camel-case split re.sub inserts a space before every uppercase
letter except at the start of the string. -/
def camelIns : List Char → List Char
  | [] => []
  | c :: rest => c :: rest.flatMap (fun d => if isAsciiUpper d then [' ', d] else [d])

/-- Python str.title: a cased (here: ASCII) letter is uppercased when the
previous character is not cased, lowercased otherwise.  The Boolean
argument records whether the previous character was cased. -/
def titleAux : Bool → List Char → List Char
  | _, [] => []
  | prev, c :: rest =>
    if isAsciiAlpha c then
      (if prev then pyLower c else pyUpper c) :: titleAux true rest
    else
      c :: titleAux false rest

def pyTitle (l : List Char) : List Char := titleAux false l

def wsToSpace (c : Char) : Char := if isPySpace c then ' ' else c

def squeezeSpaces : List Char → List Char
  | [] => []
  | [c] => [c]
  | a :: b :: t =>
    if a = ' ' && b = ' ' then squeezeSpaces (b :: t)
    else a :: squeezeSpaces (b :: t)

/-- The re.sub of a whitespace-run with a single space: every whitespace
character becomes a space, then adjacent spaces are merged. -/
def collapseWs (l : List Char) : List Char := squeezeSpaces (l.map wsToSpace)

/-- Python str.strip: drop leading and trailing whitespace. -/
def pyStrip (l : List Char) : List Char :=
  ((l.dropWhile isPySpace).reverse.dropWhile isPySpace).reverse

def normalize_column_name (col : String) : String :=
  let l1 := col.data.map repUnderscoreHyphen
  let l2 := l1.filter keepAlnumSpace
  let l3 := if l2.contains ' ' then l2 else camelIns l2
  let l4 := pyTitle l3
  let l5 := collapseWs l4
  String.mk (pyStrip l5)

/-! ## Dependency Resolver

Embedding of topological_sort and build_dependency_graph (identical in
both copies of KPI_Engine.py).  The Python dependency_graph dict is an
association list in insertion order; the indegree dict always holds
exactly the graph keys, so it is modelled as the key list plus an
integer-valued indegree function; reverse_graph is computed on demand by
revAdj, which reproduces the append order of the source loop. -/

abbrev DepGraph := List (String × List String)

def gNodes (g : DepGraph) : List String := g.map Prod.fst

def gDeps (g : DepGraph) (v : String) : List String := (g.lookup v).getD []

/-- The reverse_graph entry for d: one copy of each node per occurrence
of d in that node dependency list, grouped in graph order. -/
def revAdj (g : DepGraph) (d : String) : List String :=
  g.flatMap (fun p => (p.2.filter (fun x => x = d)).map (fun _ => p.1))

structure KState where
  ind : String → Int
  queue : List String
  sorted : List String

/-- Indegree decrement at one key. -/
def bumpInd (ind : String → Int) (dependent : String) : String → Int :=
  fun x => if x = dependent then ind x - 1 else ind x

/-- One iteration of the inner for-loop: decrement the indegree of a
dependent and enqueue it when the decrement reaches zero. -/
def relaxOne (acc : (String → Int) × List String) (dependent : String) :
    (String → Int) × List String :=
  (bumpInd acc.1 dependent,
   if bumpInd acc.1 dependent dependent = 0 then acc.2 ++ [dependent] else acc.2)

def relaxAll (revl : List String) (ind : String → Int) (queue : List String) :
    (String → Int) × List String :=
  revl.foldl relaxOne (ind, queue)

/-- The while-loop of topological_sort.  The Python loop runs until the
queue is empty; kahnFuel below is proven to be enough fuel for that. -/
def kahnLoop (g : DepGraph) : Nat → KState → KState
  | 0, s => s
  | fuel+1, s =>
    match s.queue with
    | [] => s
    | node :: rest =>
      let iq := relaxAll (revAdj g node) s.ind rest
      kahnLoop g fuel ⟨iq.1, iq.2, s.sorted ++ [node]⟩

/-- Initial indegree of a node: the length of its dependency list. -/
def initInd (g : DepGraph) : String → Int := fun v => ((gDeps g v).length : Int)

/-- Initial queue: graph keys with an empty dependency list, in graph
(dict-insertion) order. -/
def initQueue (g : DepGraph) : List String :=
  (g.filter (fun p => p.2.length = 0)).map Prod.fst

def kahnFuel (g : DepGraph) : Nat := g.length + (g.map (fun p => p.2.length)).sum

/-- The state in which the while-loop of topological_sort finishes. -/
def kahnFinal (g : DepGraph) : KState :=
  kahnLoop g (kahnFuel g) ⟨initInd g, initQueue g, []⟩

def topological_sort (g : DepGraph) : Except String (List String) :=
  let s := kahnFinal g
  if s.sorted.length ≠ g.length then
    Except.error "Circular dependency detected in KPIs"
  else
    Except.ok s.sorted

/-! ## KPI definitions (catalog entries)

The fields of a KPI dict that the engine reads, with the defaults the
source supplies through dict.get. -/

structure KpiInfo where
  formula : Option String := none
  columns : List String := []
  dependencies : List String := []
  deriving DecidableEq

/-- The dict built by the loop of build_dependency_graph: each KPI name
mapped to its dependencies field. -/
def catGraph (kpis : List (String × KpiInfo)) : DepGraph :=
  kpis.map (fun p => (p.1, p.2.dependencies))

def build_dependency_graph (kpis : List (String × KpiInfo)) : Except String (List String) :=
  topological_sort (catGraph kpis)

/-! ### Specification vocabulary for the resolver -/

/-- d is a (direct) dependency of v in g. -/
def depRel (g : DepGraph) (d v : String) : Prop := d ∈ gDeps g v

/-- The dependency graph has no cycle: no nonempty dependency path from a
node back to itself. -/
def Acyclic (g : DepGraph) : Prop := ∀ v, ¬ Relation.TransGen (depRel g) v v

/-- Every dependency of a graph node is itself a graph node. -/
def ClosedGraph (g : DepGraph) : Prop :=
  ∀ v ∈ gNodes g, ∀ d ∈ gDeps g v, d ∈ gNodes g

/-- d occurs strictly before v in the list l. -/
def Before (l : List String) (d v : String) : Prop :=
  ∃ pre post, l = pre ++ v :: post ∧ d ∈ pre

/-- Number of dependencies of v not yet in done (with multiplicity). -/
def residualDeg (g : DepGraph) (done : List String) (v : String) : Nat :=
  (gDeps g v).countP (fun d => d ∉ done)

/-- Sum of the (clamped) indegrees over the graph keys; together with the
queue length this bounds the number of remaining loop iterations. -/
def sumIndNat (keys : List String) (ind : String → Int) : Nat :=
  (keys.map (fun v => (ind v).toNat)).sum

def pot (g : DepGraph) (s : KState) : Nat :=
  s.queue.length + sumIndNat (gNodes g) s.ind

/-- Invariant of the inner for-loop over the dependents of the popped
node.  done is the sorted list including the popped node; rem is the
suffix of its reverse-adjacency list still to be processed. -/
structure RInv (g : DepGraph) (done rem : List String) (ind : String → Int)
    (queue : List String) : Prop where
  ind_eq : ∀ v ∈ gNodes g, ind v = (residualDeg g done v : Int) + (rem.count v : Int)
  rem_sub : ∀ v ∈ rem, v ∈ gNodes g
  queue_nodup : queue.Nodup
  queue_sub : ∀ v ∈ queue, v ∈ gNodes g
  queue_disj : ∀ v ∈ queue, v ∉ done
  queue_zero : ∀ v ∈ queue, ind v = 0
  zero_in : ∀ v ∈ gNodes g, ind v = 0 → v ∉ done → v ∈ queue
  done_rem : ∀ v ∈ done, rem.count v = 0

/-- Invariant of the outer while-loop. -/
structure KInv (g : DepGraph) (s : KState) : Prop where
  sorted_nodup : s.sorted.Nodup
  sorted_sub : ∀ v ∈ s.sorted, v ∈ gNodes g
  queue_nodup : s.queue.Nodup
  queue_sub : ∀ v ∈ s.queue, v ∈ gNodes g
  queue_disj : ∀ v ∈ s.queue, v ∉ s.sorted
  queue_zero : ∀ v ∈ s.queue, s.ind v = 0
  ind_eq : ∀ v ∈ gNodes g, s.ind v = (residualDeg g s.sorted v : Int)
  zero_in : ∀ v ∈ gNodes g, s.ind v = 0 → v ∉ s.sorted → v ∈ s.queue
  ord : ∀ v ∈ s.sorted, ∀ d ∈ gDeps g v, Before s.sorted d v

/-! ## String helpers shared by matching and evaluation -/

/-- The apostrophe and double-quote characters, written by code point so
that formula strings can be assembled without quote literals. -/
def sqc : Char := Char.ofNat 39

def dqc : Char := Char.ofNat 34

/-- Single-quote as a one-character string. -/
def sq : String := String.mk [sqc]

def quoteChars : List Char := [sqc, dqc]

def toLowerStr (s : String) : String := String.mk (s.data.map pyLower)

def isPrefixList : List Char → List Char → Bool
  | [], _ => true
  | _, [] => false
  | a :: as2, b :: bs => a = b && isPrefixList as2 bs

/-- Substring containment (Python: needle in haystack). -/
def containsSub : List Char → List Char → Bool
  | _, [] => true
  | [], _ => false
  | h :: t, nd => isPrefixList nd (h :: t) || containsSub t nd

def strContains (haystack needle : String) : Bool :=
  containsSub haystack.data needle.data

def strContainsLower (haystack needle : String) : Bool :=
  containsSub (toLowerStr haystack).data needle.data

/-- Python dict assignment d[k] = v: update in place when the key exists
(keeping its position), append otherwise. -/
def dictInsert {α : Type} (l : List (String × α)) (k : String) (v : α) :
    List (String × α) :=
  if (l.lookup k).isSome then l.map (fun p => if p.1 = k then (k, v) else p)
  else l ++ [(k, v)]

/-- Python dict merge of two dicts (second overrides first). -/
def pyDictMerge {α : Type} (d1 d2 : List (String × α)) : List (String × α) :=
  d2.foldl (fun acc p => dictInsert acc p.1 p.2) d1

/-! ## Dates

Gregorian dates for the temporal calculator.  daysFromCivil is the
standard civil-from-days algorithm restricted to the positive range
(years from 1), counting days from 0000-03-01; only day differences and
week alignment are used. -/

structure Date where
  year : Nat
  month : Nat
  day : Nat
  deriving DecidableEq

/-- Lexicographic encoding, monotone on valid dates; used for ordering. -/
def encodeDate (d : Date) : Nat := d.year * 10000 + d.month * 100 + d.day

def daysFromCivil (dt : Date) : Nat :=
  let y2 := if dt.month ≤ 2 then dt.year - 1 else dt.year
  let era := y2 / 400
  let yoe := y2 % 400
  let mp := (dt.month + 9) % 12
  let doy := (153 * mp + 2) / 5 + (dt.day - 1)
  let doe := yoe * 365 + yoe / 4 - yoe / 100 + doy
  era * 146097 + doe

def dateFromDays (z : Nat) : Date :=
  let era := z / 146097
  let doe := z % 146097
  let yoe := (doe - doe / 1460 + doe / 36524 - doe / 146096) / 365
  let y := yoe + era * 400
  let doy := doe - (365 * yoe + yoe / 4 - yoe / 100)
  let mp := (5 * doy + 2) / 153
  let d := doy - (153 * mp + 2) / 5 + 1
  let m := if mp < 10 then mp + 3 else mp - 9
  ⟨if m ≤ 2 then y + 1 else y, m, d⟩

/-- Weekday with Monday = 0 (0000-03-01, day zero of daysFromCivil, was
a Wednesday). -/
def weekdayMon0 (z : Nat) : Nat := (z + 2) % 7

/-- Start of the pandas weekly period (W-SUN: Monday through Sunday), as
produced by to_period and start_time. -/
def weekStartDate (dt : Date) : Date :=
  let z := daysFromCivil dt
  dateFromDays (z - weekdayMon0 z)

/-- Start of the monthly period, as produced by to_period with M and
start_time. -/
def monthStartDate (dt : Date) : Date := ⟨dt.year, dt.month, 1⟩

/-! ## Dataframe model

A pandas dataframe as an ordered list of named, typed columns; in-place
mutation is modelled by returning the updated dataframe. -/

inductive Cell where
  | na
  | str (s : String)
  | num (q : Rat)
  | datetime (d : Date)
  deriving DecidableEq

inductive DType where
  | obj
  | numeric
  | datetime
  deriving DecidableEq

structure Col where
  name : String
  dtype : DType
  cells : List Cell
  deriving DecidableEq

structure DataFrame where
  cols : List Col
  deriving DecidableEq

def DataFrame.colNames (df : DataFrame) : List String := df.cols.map Col.name

def DataFrame.colCells (df : DataFrame) (c : String) : List Cell :=
  ((df.cols.find? (fun col => col.name = c)).map Col.cells).getD []

/-- len(df): number of rows. -/
def DataFrame.nrows (df : DataFrame) : Nat :=
  ((df.cols.head?.map (fun c => c.cells.length)).getD 0)

/-- Modelled from pandas: to_datetime with errors coerce parses ISO
YYYY-MM-DD strings (the only date format appearing in this development)
and coerces everything else to NaT. -/
def parseNatDigits (cs : List Char) : Option Nat :=
  if cs ≠ [] && cs.all isAsciiDigit then
    some (cs.foldl (fun acc c => acc * 10 + (c.toNat - 48)) 0)
  else none

def splitOnChar (sep : Char) (cs : List Char) : List (List Char) :=
  match cs with
  | [] => [[]]
  | c :: rest =>
    let r := splitOnChar sep rest
    if c = sep then [] :: r
    else match r with
      | [] => [[c]]
      | h :: t => (c :: h) :: t

def parseIsoDate (s : String) : Option Date :=
  match splitOnChar '-' s.data with
  | [ys, ms, ds] =>
    match parseNatDigits ys, parseNatDigits ms, parseNatDigits ds with
    | some y, some m, some d =>
      if ys.length = 4 && ms.length = 2 && ds.length = 2 &&
         1 ≤ m && m ≤ 12 && 1 ≤ d && d ≤ 31 then
        some ⟨y, m, d⟩
      else none
    | _, _, _ => none
  | _ => none

def toDatetimeCell (c : Cell) : Cell :=
  match c with
  | Cell.datetime d => Cell.datetime d
  | Cell.str s => match parseIsoDate s with
    | some d => Cell.datetime d
    | none => Cell.na
  | _ => Cell.na

/-- In-place pd.to_datetime of one column (dtype becomes datetime). -/
def convertColToDatetime (df : DataFrame) (c : String) : DataFrame :=
  ⟨df.cols.map (fun col =>
    if col.name = c then ⟨col.name, DType.datetime, col.cells.map toDatetimeCell⟩
    else col)⟩

def notnaCount (df : DataFrame) (c : String) : Nat :=
  (df.colCells c).countP (fun cell => cell ≠ Cell.na)

def datetimesOf (cells : List Cell) : List Date :=
  cells.filterMap (fun c => match c with | Cell.datetime d => some d | _ => none)

/-! ## Time-coverage and date-column detection

Embeddings of has_minimum_time_coverage, detect_date_column,
determine_period_type and add_period_column.  The first two assign
pd.to_datetime output back into the caller dataframe; that in-place
mutation is modelled by returning the updated dataframe. -/

def monthKey (d : Date) : Nat × Nat := (d.year, d.month)

/-- has_minimum_time_coverage: converts the date column in place, then
counts distinct months or weeks; an unknown period name raises inside
the try-block, which the except turns into False (the conversion having
already happened). -/
def has_minimum_time_coverage (df : DataFrame) (date_col : String)
    (period : String) (min_periods : Nat) : Bool × DataFrame :=
  if date_col ∉ df.colNames then (false, df)
  else
    let df2 := convertColToDatetime df date_col
    let dates := datetimesOf (df2.colCells date_col)
    if period = "month" then
      (min_periods ≤ (dates.map monthKey).dedup.length, df2)
    else if period = "week" then
      (min_periods ≤ (dates.map weekStartDate).dedup.length, df2)
    else
      (false, df2)

def dateNameHint (c : String) : Bool :=
  strContainsLower c "date" || strContainsLower c "time" || strContainsLower c "timestamp"

def detectLoop : List String → DataFrame → Option String × DataFrame
  | [], df => (none, df)
  | c :: rest, df =>
    if dateNameHint c then
      let df2 := convertColToDatetime df c
      if 2 * notnaCount df2 c > df2.nrows then (some c, df2)
      else detectLoop rest df2
    else detectLoop rest df

/-- detect_date_column: name-hinted columns are converted in place one
by one; the first one whose values parse for more than half the rows is
returned; otherwise the first datetime-typed column. -/
def detect_date_column (df : DataFrame) : Option String × DataFrame :=
  match detectLoop df.colNames df with
  | (some c, df2) => (some c, df2)
  | (none, df2) =>
    (((df2.cols.find? (fun col => col.dtype = DType.datetime)).map Col.name), df2)

/-- determine_period_type: WoW when the span of the date column is under
30 days, MoM otherwise. -/
def determine_period_type (df : DataFrame) (date_col : String) : String :=
  let ds := (datetimesOf (df.colCells date_col)).map daysFromCivil
  let span := ds.foldl max 0 - ds.foldl min (ds.headD 0)
  if span < 30 then "WoW" else "MoM"

/-- add_period_column works on a copy of the dataframe (df.copy()) and
appends the period column: start of week or start of month. -/
def add_period_column (df : DataFrame) (date_col : String) (period_type : String) :
    DataFrame :=
  let periodCell : Cell → Cell := fun c =>
    match c with
    | Cell.datetime d =>
      Cell.datetime (if period_type = "WoW" then weekStartDate d else monthStartDate d)
    | _ => Cell.na
  ⟨df.cols ++ [⟨"period", DType.datetime, (df.colCells date_col).map periodCell⟩]⟩

def insertSorted (x : Date) : List Date → List Date
  | [] => [x]
  | y :: t => if encodeDate x ≤ encodeDate y then x :: y :: t else y :: insertSorted x t

def sortDates (l : List Date) : List Date := l.foldr insertSorted []

/-- sorted(df.unique()) over the period column. -/
def periodsOf (df : DataFrame) : List Date :=
  sortDates (datetimesOf (df.colCells "period")).dedup

def maskFilter (mask : List Bool) (cells : List Cell) : List Cell :=
  (List.zip mask cells).filterMap (fun mc => if mc.1 then some mc.2 else none)

/-- Row subset df of one period (boolean-mask selection returns a new
frame, leaving the original untouched). -/
def filterByPeriod (df : DataFrame) (p : Date) : DataFrame :=
  let mask := (df.colCells "period").map (fun c => decide (c = Cell.datetime p))
  ⟨df.cols.map (fun col => ⟨col.name, col.dtype, maskFilter mask col.cells⟩)⟩

def padNat (width n : Nat) : String :=
  let s := toString n
  String.mk (List.replicate (width - s.length) '0') ++ s

/-- str() of the pandas Timestamp that keys each period. -/
def pyStrTimestamp (d : Date) : String :=
  padNat 4 d.year ++ "-" ++ padNat 2 d.month ++ "-" ++ padNat 2 d.day ++ " 00:00:00"

/-! ## Formula Evaluator

Embedding of calculate_kpis.  Values produced by a formula are modelled
by PyVal (rationals standing for finite floats, with nan and inf
explicit); the Python eval call itself is an external effect of the
interpreter and is therefore a parameter (evalFn), invoked on the fully
substituted formula string with the dataframe and the results computed
so far, exactly as eval receives df and kpis in its globals. -/

inductive PyVal where
  | num (q : Rat)
  | nan
  | inf
  | str (s : String)
  deriving DecidableEq

inductive EvalOutcome where
  | raised (msg : String)
  | value (v : PyVal)
  deriving DecidableEq

structure KpiResultData where
  value : Option PyVal
  success : Bool
  error : Option String
  deriving DecidableEq

abbrev EvalFn := String → DataFrame → List (String × KpiResultData) → EvalOutcome

structure KpiStatus where
  calculable : Bool
  matched_columns : List (String × Option String)
  kpi_info : KpiInfo
  deriving DecidableEq

/-- Python round(x, 4): round-half-to-even at four decimals; nan and inf
round to themselves. -/
def roundHalfEven4 (q : Rat) : Rat :=
  let scaled := q * 10000
  let f : Int := scaled.floor
  let r := scaled - (f : Rat)
  let n : Int :=
    if r < 1/2 then f
    else if 1/2 < r then f + 1
    else if f % 2 = 0 then f else f + 1
  (n : Rat) / 10000

def pyRound4 : PyVal → PyVal
  | PyVal.num q => PyVal.num (roundHalfEven4 q)
  | v => v

/-- isinstance(result, (int, float, np.number)). -/
def isNumberVal : PyVal → Bool
  | PyVal.num _ => true
  | PyVal.nan => true
  | PyVal.inf => true
  | PyVal.str _ => false

def trimTrailingZeros (cs : List Char) : List Char :=
  (cs.reverse.dropWhile (fun c => c = '0')).reverse

/-- Modelled from Python: str() of a float whose value has at most four
decimal places (the shape every rounded KPI value has). -/
def ratToPyStr (q : Rat) : String :=
  let a : Rat := |q|
  let i : Nat := a.floor.toNat
  let fracNum : Nat := ((a - (a.floor : Rat)) * 10000).floor.toNat
  (if q < 0 then "-" else "") ++ toString i ++ "." ++
    (if fracNum = 0 then "0" else String.mk (trimTrailingZeros (padNat 4 fracNum).data))

def pyStrVal : Option PyVal → String
  | none => "None"
  | some (PyVal.num q) => ratToPyStr q
  | some PyVal.nan => "nan"
  | some PyVal.inf => "inf"
  | some (PyVal.str s) => s

/-! ### Regex substitution used by calculate_kpis

re.sub with the IGNORECASE patterns that rewrite df[quote placeholder
quote] and quote placeholder quote, where either quote character is
accepted on each side; scanning is leftmost, non-overlapping, resuming
after each replacement, as re.sub does. -/

def matchLitCI : List Char → List Char → Option (List Char)
  | [], s => some s
  | _, [] => none
  | p :: ps, c :: cs => if pyLower c = pyLower p then matchLitCI ps cs else none

def matchQuote : List Char → Option (List Char)
  | c :: cs => if c ∈ quoteChars then some cs else none
  | [] => none

def matchDfRef (ph : List Char) (s : List Char) : Option (List Char) :=
  (matchLitCI ['d', 'f', '['] s).bind (fun r1 =>
  (matchQuote r1).bind (fun r2 =>
  (matchLitCI ph r2).bind (fun r3 =>
  (matchQuote r3).bind (fun r4 =>
  matchLitCI [']'] r4))))

def matchStrRef (ph : List Char) (s : List Char) : Option (List Char) :=
  (matchQuote s).bind (fun r1 => (matchLitCI ph r1).bind matchQuote)

def subAllAux (tryMatch : List Char → Option (List Char)) (rep : List Char) :
    Nat → List Char → List Char
  | 0, s => s
  | _ + 1, [] => []
  | fuel + 1, c :: cs =>
    match tryMatch (c :: cs) with
    | some rest => rep ++ subAllAux tryMatch rep fuel rest
    | none => c :: subAllAux tryMatch rep fuel cs

def reSubCI (tryMatch : List Char → Option (List Char)) (rep : List Char)
    (s : List Char) : List Char :=
  subAllAux tryMatch rep s.length s

def substituteDfRefs (ph real formula : String) : String :=
  String.mk (reSubCI (matchDfRef ph.data)
    (("df[" ++ sq ++ real ++ sq ++ "]").data) formula.data)

def substituteStrRefs (ph real formula : String) : String :=
  String.mk (reSubCI (matchStrRef ph.data) ((sq ++ real ++ sq).data) formula.data)

/-- The placeholder-substitution loop of calculate_kpis: unmatched (None
or empty) placeholders are skipped, matched ones are rewritten first in
df[...] references and then in bare quoted references. -/
def substPlaceholders (mc : List (String × Option String)) (f : String) : String :=
  mc.foldl (fun acc p =>
    match p.2 with
    | none => acc
    | some real =>
      if real = "" then acc
      else substituteStrRefs p.1 real (substituteDfRefs p.1 real acc)) f

/-- Case-sensitive literal prefix match returning the rest of the
string. -/
def matchLitCS : List Char → List Char → Option (List Char)
  | [], s => some s
  | _, [] => none
  | p :: ps, c :: cs => if c = p then matchLitCS ps cs else none

/-- Python str.replace for a nonempty pattern: replace every leftmost
non-overlapping occurrence. -/
def pyReplace (s pat rep : String) : String :=
  String.mk (subAllAux (matchLitCS pat.data) rep.data s.data.length s.data)

/-- The dependency-substitution loop: kpis[dep] is replaced by the
parenthesised already-computed value, only for dependencies that
succeeded. -/
def substDeps (deps : List String) (results : List (String × KpiResultData))
    (f : String) : String :=
  deps.foldl (fun acc dep =>
    match results.lookup dep with
    | some r =>
      if r.success then
        pyReplace acc ("kpis[" ++ sq ++ dep ++ sq ++ "]") ("(" ++ pyStrVal r.value ++ ")")
      else acc
    | none => acc) f

def defaultStatus : KpiStatus := ⟨false, [], {}⟩

/-- The body of the per-KPI loop of calculate_kpis. -/
def evalOneKpi (evalFn : EvalFn) (df : DataFrame) (avail : List (String × KpiStatus))
    (acc : List (String × KpiResultData)) (kpi_name : String) : KpiResultData :=
  let kd := ((avail.lookup kpi_name).getD defaultStatus)
  if kd.calculable = false then
    ⟨none, false, some "Not calculable (missing dependencies or columns)"⟩
  else
    match kd.kpi_info.formula with
    | none => ⟨none, false, some "Missing formula"⟩
    | some f =>
      if f = "" then ⟨none, false, some "Missing formula"⟩
      else
        let f1 := substPlaceholders kd.matched_columns f
        let f2 := substDeps kd.kpi_info.dependencies acc f1
        match evalFn f2 df acc with
        | EvalOutcome.raised e => ⟨none, false, some e⟩
        | EvalOutcome.value v =>
          ⟨some (if isNumberVal v then pyRound4 v else v), true, none⟩

def calculate_kpis (evalFn : EvalFn) (df : DataFrame)
    (avail : List (String × KpiStatus)) (order : List String) :
    List (String × KpiResultData) :=
  order.foldl (fun acc k => dictInsert acc k (evalOneKpi evalFn df avail acc k)) []

/-! ## Temporal Calculator -/

inductive TemporalResult where
  | noDateCol
  | ok (perPeriod : List (String × List (String × KpiResultData)))
       (period_type : String) (date_col : String)
  deriving DecidableEq

/-- calculate_kpis_temporal.  The second component is the caller-visible
dataframe after the call: detect_date_column converts the detected
column in place, while add_period_column works on a copy, so the only
caller-visible mutation is the one from detect_date_column. -/
def calculate_kpis_temporal (evalFn : EvalFn) (df : DataFrame)
    (avail : List (String × KpiStatus)) (order : List String) :
    TemporalResult × DataFrame :=
  match detect_date_column df with
  | (none, df1) => (TemporalResult.noDateCol, df1)
  | (some dcol, df1) =>
    let ptype := determine_period_type df1 dcol
    let df2 := add_period_column df1 dcol ptype
    let results := (periodsOf df2).foldl
      (fun acc p => dictInsert acc (pyStrTimestamp p)
        (calculate_kpis evalFn (filterByPeriod df2 p) avail order)) []
    (TemporalResult.ok results ptype dcol, df1)

/-! ## KPI Matching Stage (backend engine)

Embedding of match_base_kpis, match_derived_kpis and match_kpis from
backend/modules/KPI_Module/KPI_Engine.py.  In this engine fuzzy matching
is disabled in match_base_kpis (the source prints FUZZY MATCHING
DISABLED - Using LLM mapping only) and a placeholder matches exactly
when the externally supplied LLM mapping maps it to an existing column.
The mapping returned by llm_intelligent_column_mapping (a Gemini call,
empty dict on any failure) is therefore a parameter. -/

def normalize_columns (columns : List String) : List String :=
  columns.map normalize_column_name

/-- The per-placeholder loop shared by every matcher: build the
matched_columns dict and track whether every placeholder found a match
(the all_found flag of the source). -/
def phScan (m : String → Option String) (phs : List String) :
    List (String × Option String) × Bool :=
  phs.foldl (fun p ph => (dictInsert p.1 ph (m ph), p.2 && (m ph).isSome)) ([], true)

/-- Match of one placeholder through the LLM mapping alone (the backend
engine disables fuzzy matching here). -/
def llmMatch (column_names : List String)
    (llm_mapping : List (String × Option String)) (ph : String) : Option String :=
  if llm_mapping = [] then none
  else
    match llm_mapping.lookup ph with
    | some (some lm) =>
      if lm ≠ "" ∧ lm ∈ column_names then some (normalize_column_name lm) else none
    | _ => none

def match_base_kpis (column_names : List String)
    (base_kpis : List (String × KpiInfo))
    (llm_mapping : List (String × Option String)) : List (String × KpiStatus) :=
  base_kpis.foldl (fun st kp =>
    let scan := phScan (llmMatch column_names llm_mapping) kp.2.columns
    dictInsert st kp.1 ⟨scan.2, scan.1, kp.2⟩) []

/-- The per-placeholder scan of the base statuses inside
match_derived_kpis: the first calculable base KPI whose matched_columns
dict contains the placeholder as a key supplies the stored value. -/
def findBaseMatch (base_status : List (String × KpiStatus)) (ph : String) :
    Option String :=
  match base_status.find? (fun q =>
      q.2.calculable && (q.2.matched_columns.lookup ph).isSome) with
  | some q => ((q.2.matched_columns.lookup ph).getD none)
  | none => none

def depCalculable (base_status : List (String × KpiStatus)) (dep : String) : Bool :=
  ((base_status.lookup dep).map KpiStatus.calculable).getD false

/-- The body of the per-KPI loop of match_derived_kpis, threading the
status dict and the (mutated) dataframe. -/
def derivedStep (column_names : List String)
    (base_status : List (String × KpiStatus))
    (acc : List (String × KpiStatus) × DataFrame) (kp : String × KpiInfo) :
    List (String × KpiStatus) × DataFrame :=
    let normalized_columns := normalize_columns column_names
    let kpi_name := kp.1
    let kpi_info := kp.2
    let dependencies := kpi_info.dependencies
    if dependencies.all (fun dep => depCalculable base_status dep) then
      let available_columns := dependencies.foldl (fun ac dep =>
        if depCalculable base_status dep then
          match (((base_status.lookup dep).getD defaultStatus).matched_columns.lookup dep).getD none with
          | some mbc => if mbc ≠ "" then ac ++ [normalize_column_name mbc] else ac
          | none => ac
        else ac) normalized_columns
      let scan := phScan (fun ph =>
        match findBaseMatch base_status ph with
        | some v => some v
        | none =>
          if normalize_column_name ph ∈ available_columns then
            some (normalize_column_name ph)
          else none) kpi_info.columns
      let matched_columns := scan.1
      let lowname := toLowerStr kpi_name
      if isPrefixList "monthly".data lowname.data || isPrefixList "weekly".data lowname.data then
        let date_match : Option String :=
          ((matched_columns.find? (fun kv =>
            containsSub (toLowerStr kv.1).data "date".data)).map Prod.snd).getD none
        match date_match with
        | some dm =>
          if dm ≠ "" ∧ dm ∈ acc.2.colNames then
            let pt := if strContainsLower kpi_name "monthly" then "month" else "week"
            let r := has_minimum_time_coverage acc.2 dm pt 2
            (dictInsert acc.1 kpi_name ⟨scan.2 && r.1, matched_columns, kpi_info⟩, r.2)
          else (dictInsert acc.1 kpi_name ⟨scan.2, matched_columns, kpi_info⟩, acc.2)
        | none => (dictInsert acc.1 kpi_name ⟨scan.2, matched_columns, kpi_info⟩, acc.2)
      else (dictInsert acc.1 kpi_name ⟨scan.2, matched_columns, kpi_info⟩, acc.2)
    else (dictInsert acc.1 kpi_name ⟨false, [], kpi_info⟩, acc.2)

def match_derived_kpis (column_names : List String)
    (derived_kpis : List (String × KpiInfo))
    (base_status : List (String × KpiStatus)) (df : DataFrame) :
    List (String × KpiStatus) × DataFrame :=
  let res := derived_kpis.foldl (derivedStep column_names base_status) ([], df)
  (res.1.filter (fun p => p.2.calculable), res.2)

def match_kpis (column_names : List String) (combined_kpis : List (String × KpiInfo))
    (df : DataFrame) (llm_mapping : List (String × Option String)) :
    List (String × KpiStatus) × DataFrame :=
  let base_kpis := combined_kpis.filter (fun p => p.2.dependencies.isEmpty)
  let derived_kpis := combined_kpis.filter (fun p => !p.2.dependencies.isEmpty)
  let base_status := match_base_kpis column_names base_kpis llm_mapping
  let ds := match_derived_kpis column_names derived_kpis base_status df
  (pyDictMerge base_status ds.1, ds.2)

/-! ## Legacy engine (modules/KPI_Module/KPI_Engine.py)

The older near-duplicate engine keeps the layered matcher: fuzzy first
(rapidfuzz token_set_ratio through process.extractOne, abstracted as the
scorer parameter since rapidfuzz is an external library), then the
optional injected semantic layer.  extractOne returns the first
best-scoring candidate. -/

namespace Legacy

def bestMatch (scorer : String → String → Nat) (q : String) :
    List String → Option (String × Nat)
  | [] => none
  | c :: cs =>
    some (cs.foldl (fun best x =>
      if scorer q x > best.2 then (x, scorer q x) else best) (c, scorer q c))

def match_column (scorer : String → String → Nat) (kpi_col : String)
    (available_columns : List String) (threshold : Nat)
    (semantic_match_fn : Option (String → List String → Option String)) :
    Option String :=
  match bestMatch scorer kpi_col available_columns with
  | none => none
  | some ms =>
    if ms.2 ≥ threshold then some ms.1
    else
      match semantic_match_fn with
      | some f => f kpi_col available_columns
      | none => none

def match_base_kpis (scorer : String → String → Nat) (column_names : List String)
    (base_kpis : List (String × KpiInfo)) (threshold : Nat)
    (semantic_match_fn : Option (String → List String → Option String)) :
    List (String × KpiStatus) :=
  let normalized_columns := normalize_columns column_names
  base_kpis.foldl (fun st kp =>
    let scan := phScan (fun ph =>
      match_column scorer (normalize_column_name ph) normalized_columns
        threshold semantic_match_fn) kp.2.columns
    dictInsert st kp.1 ⟨scan.2, scan.1, kp.2⟩) []

end Legacy

/-! ## CustomKPICalculator (backend/modules/custom_kpi_calculator.py)

validate_formula is embedded in full: the quoted/bracketed column
extraction, the aggregation-name extraction and the dangerous-keyword
substring check.  The aggregation-to-pandas rewriting plus the eval in
the restricted namespace (whose dict binds __builtins__ to an empty
dict, so no Python builtin resolves there) is the external interpreter
step and is a parameter of calculate_kpi. -/

def ALLOWED_AGGREGATIONS : List String :=
  ["sum", "avg", "mean", "count", "nunique", "min", "max", "median"]

def dangerous_keywords : List String :=
  ["import", "exec", "eval", "compile", "__", "open", "file"]

def takeQuoted (cs : List Char) : Option (List Char × List Char) :=
  let content := cs.takeWhile (fun c => c ∉ quoteChars)
  let rest := cs.dropWhile (fun c => c ∉ quoteChars)
  match content, rest with
  | [], _ => none
  | _, [] => none
  | cont, _ :: rs => some (cont, rs)

def takeBracketed (cs : List Char) : Option (List Char × List Char) :=
  let content := cs.takeWhile (fun c => c ≠ ']')
  let rest := cs.dropWhile (fun c => c ≠ ']')
  match content, rest with
  | [], _ => none
  | _, [] => none
  | cont, _ :: rs => some (cont, rs)

/-- findall of the column pattern: a quoted run without quote characters,
or a bracketed run, leftmost and non-overlapping. -/
def scanColsAux : Nat → List Char → List String
  | 0, _ => []
  | _ + 1, [] => []
  | fuel + 1, c :: cs =>
    if c ∈ quoteChars then
      match takeQuoted cs with
      | some p => String.mk p.1 :: scanColsAux fuel p.2
      | none => scanColsAux fuel cs
    else if c = '[' then
      match takeBracketed cs with
      | some p => String.mk p.1 :: scanColsAux fuel p.2
      | none => scanColsAux fuel cs
    else scanColsAux fuel cs

def columnsUsed (formula : String) : List String :=
  scanColsAux formula.data.length formula.data

def isWordChar (c : Char) : Bool := isAlnumAscii c || c = '_'

def stripExact : List Char → List Char → Option (List Char)
  | [], s => some s
  | _, [] => none
  | p :: ps, c :: cs => if c = p then stripExact ps cs else none

/-- One attempt of the aggregation pattern at the current position: an
allowed aggregation name (first alternative wins), optional whitespace,
then an opening parenthesis. -/
def tryAgg (s : List Char) : Option (String × List Char) :=
  (ALLOWED_AGGREGATIONS.filterMap (fun agg =>
    (stripExact agg.data s).bind (fun r =>
      match r.dropWhile isPySpace with
      | c :: rs => if c = '(' then some (agg, rs) else none
      | [] => none))).head?

/-- findall of the aggregation pattern over the lowercased formula; the
Boolean tracks whether the previous character was a word character (the
word boundary of the pattern). -/
def aggScanAux : Nat → Bool → List Char → List String
  | 0, _, _ => []
  | _ + 1, _, [] => []
  | fuel + 1, prevWord, c :: cs =>
    if prevWord then aggScanAux fuel (isWordChar c) cs
    else
      match tryAgg (c :: cs) with
      | some p => p.1 :: aggScanAux fuel false p.2
      | none => aggScanAux fuel (isWordChar c) cs

def aggregationsUsed (lowered : String) : List String :=
  aggScanAux lowered.data.length false lowered.data

structure VResult where
  valid : Bool
  error : Option String
  columns_used : List String
  aggregations_used : List String
  deriving DecidableEq

def validate_formula (all_columns : List String) (formula : String) : VResult :=
  let columns_used := columnsUsed formula
  let invalid_cols := columns_used.filter (fun c => c ∉ all_columns)
  if invalid_cols ≠ [] then
    ⟨false, some ("Columns not found: " ++ String.intercalate ", " invalid_cols),
     columns_used, []⟩
  else
    let lower := toLowerStr formula
    let aggs := aggregationsUsed lower
    if dangerous_keywords.any (fun k => strContains lower k) then
      ⟨false, some "Formula contains disallowed operations", columns_used, aggs⟩
    else ⟨true, none, columns_used, aggs⟩

inductive CEvalOutcome where
  | raisedZeroDiv
  | raised (msg : String)
  | value (v : PyVal)
  deriving DecidableEq

structure CustomResult where
  success : Bool
  value : Option PyVal
  error : Option String
  deriving DecidableEq

/-- CustomKPICalculator.calculate_kpi: validation gates the eval; a NaN
or infinite numeric result is reported as a failure. -/
def custom_calculate_kpi (evalFn : String → CEvalOutcome)
    (all_columns : List String) (formula : String) : CustomResult :=
  let v := validate_formula all_columns formula
  if v.valid = false then ⟨false, none, v.error⟩
  else
    match evalFn formula with
    | CEvalOutcome.raisedZeroDiv =>
      ⟨false, none, some "Division by zero error in formula"⟩
    | CEvalOutcome.raised e => ⟨false, none, some ("Calculation error: " ++ e)⟩
    | CEvalOutcome.value val =>
      match val with
      | PyVal.nan =>
        ⟨false, none,
         some "Calculation resulted in invalid value (NaN/Inf). Check for division by zero."⟩
      | PyVal.inf =>
        ⟨false, none,
         some "Calculation resulted in invalid value (NaN/Inf). Check for division by zero."⟩
      | _ => ⟨true, some val, none⟩

/-! ## Evaluation context of calculate_kpis (security surface)

The eval call in calculate_kpis passes the globals dict with exactly the
keys df, kpis, np and pd and no __builtins__ entry.  By the documented
CPython rule, eval then inserts the real builtins module under
__builtins__, so every builtin (open, __import__, ...) resolves inside a
formula.  calcKpisEvalNames lists the names resolvable in that eval. -/

def calcKpisEvalGlobals : List String := ["df", "kpis", "np", "pd"]

/-- File-, process-, import- and reflection-capable builtins that CPython
injects because the globals dict of the eval lacks __builtins__. -/
def injectedBuiltins : List String :=
  ["open", "__import__", "eval", "exec", "compile", "getattr", "globals"]

def calcKpisEvalNames : List String := calcKpisEvalGlobals ++ injectedBuiltins

/-- Names bound by the namespace dict of custom_calculate_kpi; its
__builtins__ entry is the empty dict, so nothing is injected. -/
def customEvalNames : List String :=
  ["self", "np", "sum", "mean", "avg", "count", "nunique", "min", "max", "median"]

/-! ## Per-period re-matching temporal calculator (spec reading)

The spec describes the Temporal Calculator as running the KPI Matching
Stage and the Evaluator independently per period on that period row
subset.  This definition follows that description so it can be compared
with calculate_kpis_temporal, which evaluates per period but reuses the
single matching result computed on the whole dataset. -/

/-- Modelled from the spec: for each distinct period, independently run
the KPI Matching Stage and Evaluator on the row subset belonging to that
period only. -/
def temporalRematchSpec (evalFn : EvalFn) (column_names : List String)
    (catalog : List (String × KpiInfo)) (llm_mapping : List (String × Option String))
    (df : DataFrame) (order : List String) : TemporalResult :=
  match detect_date_column df with
  | (none, _) => TemporalResult.noDateCol
  | (some dcol, df1) =>
    let ptype := determine_period_type df1 dcol
    let df2 := add_period_column df1 dcol ptype
    let results := (periodsOf df2).foldl (fun acc p =>
      let sub := filterByPeriod df2 p
      let st := match_kpis column_names catalog sub llm_mapping
      dictInsert acc (pyStrTimestamp p) (calculate_kpis evalFn sub st.1 order)) []
    TemporalResult.ok results ptype dcol

/-! ## Concrete fixtures used by the claim theorems -/

def dfEmpty : DataFrame := ⟨[]⟩

/-- Modelled from pandas: Series.sum over a numeric column (NaN cells
are skipped by pandas and contribute nothing). -/
def sumNumCells (cells : List Cell) : Rat :=
  cells.foldl (fun a c => match c with | Cell.num q => a + q | _ => a) 0

def fRev : String := "df[" ++ sq ++ "revenue" ++ sq ++ "].sum()"

def fRevSub : String := "df[" ++ sq ++ "Revenue" ++ sq ++ "].sum()"

def demoCatalog : List (String × KpiInfo) :=
  [("Revenue Total", ⟨some fRev, ["revenue"], []⟩),
   ("Monthly Revenue Trend", ⟨some fRev, ["revenue", "order_date"], ["Revenue Total"]⟩)]

def demoCols : List String := ["Revenue", "Order Date"]

def demoLlm : List (String × Option String) :=
  [("revenue", some "Revenue"), ("order_date", some "Order Date")]

def demoDf : DataFrame :=
  ⟨[⟨"Revenue", DType.numeric, [Cell.num 10, Cell.num 20, Cell.num 30]⟩,
    ⟨"Order Date", DType.obj,
      [Cell.str "2024-01-01", Cell.str "2024-01-15", Cell.str "2024-02-01"]⟩]⟩

/-- Modelled from Python: eval of the one substituted formula appearing
in the demo catalog, a plain pandas column sum; anything else raises a
NameError. -/
def evalRev : EvalFn := fun f df _ =>
  if f = fRevSub then EvalOutcome.value (PyVal.num (sumNumCells (df.colCells "Revenue")))
  else EvalOutcome.raised "NameError"

def demoStatus : List (String × KpiStatus) × DataFrame :=
  match_kpis demoCols demoCatalog demoDf demoLlm

def demoOrder : List String := ["Revenue Total", "Monthly Revenue Trend"]

def demoTemporal : TemporalResult × DataFrame :=
  calculate_kpis_temporal evalRev demoStatus.2 demoStatus.1 demoOrder

def demoRematch : TemporalResult :=
  temporalRematchSpec evalRev demoCols demoCatalog demoLlm demoStatus.2 demoOrder

def janKey : String := "2024-01-01 00:00:00"

/-- Fuzzy scorer used as a witness: rapidfuzz token_set_ratio returns
100 on two identical strings, which is all the counterexample needs. -/
def eqScorer (a b : String) : Nat := if a = b then 100 else 0

def leakFormula : String := "open(" ++ sq ++ "/etc/passwd" ++ sq ++ ").read()"

/-- Modelled from CPython: the eval of calculate_kpis resolves open via
the injected builtins (its globals dict has no __builtins__ entry), so
the file-reading formula evaluates to the file contents instead of
raising. -/
def evalOpen : EvalFn := fun f _ _ =>
  if f = leakFormula then EvalOutcome.value (PyVal.str "root:x:0:0")
  else EvalOutcome.raised "NameError"

def leakStatus : List (String × KpiStatus) :=
  [("Leak", ⟨true, [], ⟨some leakFormula, [], []⟩⟩)]

/-- Modelled from numpy and Python: eval of np.nan returns the float nan
without raising. -/
def evalNan : EvalFn := fun f _ _ =>
  if f = "np.nan" then EvalOutcome.value PyVal.nan else EvalOutcome.raised "boom"

def nanStatus : List (String × KpiStatus) :=
  [("NaN KPI", ⟨true, [], ⟨some "np.nan", [], []⟩⟩)]

def dfDates : DataFrame :=
  ⟨[⟨"Order Date", DType.obj, [Cell.str "2024-01-01", Cell.str "2024-02-01"]⟩]⟩

def revCol : Col := ⟨"Revenue", DType.numeric, [Cell.num 10, Cell.num 20, Cell.num 30]⟩

/-- The per-period map computed by the demo temporal run. -/
def demoPer : List (String × List (String × KpiResultData)) :=
  match demoTemporal.1 with
  | TemporalResult.ok per _ _ => per
  | TemporalResult.noDateCol => []

def cycCatalog : List (String × KpiInfo) :=
  [("A", ⟨none, [], ["B"]⟩), ("B", ⟨none, [], ["A"]⟩)]

def okCatalog : List (String × KpiInfo) :=
  [("A", ⟨none, [], []⟩), ("B", ⟨none, [], ["A"]⟩)]

def rank0 (s : String) : Nat := if s = "B" then 1 else 0

def totRevCatalog : List (String × KpiInfo) :=
  [("Total Revenue", ⟨some "sum", ["Total Sales"], []⟩)]

def c8Base : List (String × KpiStatus) :=
  [("A", ⟨true, [("x", some "X")], ⟨some "f", ["x"], []⟩⟩)]

def c8Derived : List (String × KpiInfo) :=
  [("D", ⟨some "g", [], ["A"]⟩)]

def c8DStatus : KpiStatus := ⟨true, [], ⟨some "g", [], ["A"]⟩⟩

def c10Catalog : List (String × KpiInfo) :=
  [("A", ⟨some "fa", [], []⟩),
   ("D1", ⟨some "f1", [], ["A"]⟩),
   ("D2", ⟨some "f2", [], ["D1"]⟩)]

/-- An eval behaviour that always raises, for the C5 witness. -/
def evalBoom : EvalFn := fun _ _ _ => EvalOutcome.raised "KeyError"

def availK : List (String × KpiStatus) :=
  [("K", ⟨true, [], ⟨some "df[x]", [], []⟩⟩)]

/-- Custom-calculator eval behaviour returning nan. -/
def cEvalNan : String → CEvalOutcome := fun _ => CEvalOutcome.value PyVal.nan

/-- The per-period map computed by the spec-modelled per-period
re-matching temporal calculator on the demo dataset. -/
def rematchPer : List (String × List (String × KpiResultData)) :=
  match demoRematch with
  | TemporalResult.ok per _ _ => per
  | TemporalResult.noDateCol => []

/-! ### List and lookup helper lemmas -/

theorem lookup_some_mem {β : Type} {l : List (String × β)} {k : String} {v : β}
    (h : l.lookup k = some v) : (k, v) ∈ l := by
  induction l with
  | nil => simp [List.lookup] at h
  | cons p t ih =>
    obtain ⟨k1, v1⟩ := p
    by_cases hk : k = k1
    · subst hk
      simp [List.lookup] at h
      simp [h]
    · have hbeq : (k == k1) = false := beq_eq_false_iff_ne.mpr hk
      simp [List.lookup, hbeq] at h
      exact List.mem_cons.mpr (Or.inr (ih h))

theorem mem_lookup_of_nodup {β : Type} {l : List (String × β)} {k : String} {v : β}
    (hk : (l.map Prod.fst).Nodup) (hm : (k, v) ∈ l) : l.lookup k = some v := by
  induction l with
  | nil => simp at hm
  | cons p t ih =>
    obtain ⟨k1, v1⟩ := p
    simp only [List.map_cons, List.nodup_cons] at hk
    rcases List.mem_cons.mp hm with h1 | h2
    · injection h1 with h1a h1b
      subst h1a; subst h1b
      simp [List.lookup]
    · have hne : k ≠ k1 := by
        intro he
        exact hk.1 (he ▸ (List.mem_map.mpr ⟨(k, v), h2, rfl⟩))
      have hbeq : (k == k1) = false := beq_eq_false_iff_ne.mpr hne
      simp [List.lookup, hbeq]
      exact ih hk.2 h2

theorem gDeps_of_mem {g : DepGraph} {k : String} {ds : List String}
    (hk : (gNodes g).Nodup) (hm : (k, ds) ∈ g) : gDeps g k = ds := by
  unfold gDeps
  rw [mem_lookup_of_nodup hk hm]
  rfl

theorem mem_gNodes_of_deps_ne {g : DepGraph} {v : String}
    (h : gDeps g v ≠ []) : v ∈ gNodes g := by
  unfold gDeps at h
  cases hl : g.lookup v with
  | none => rw [hl] at h; simp at h
  | some ds =>
    exact List.mem_map.mpr ⟨(v, ds), lookup_some_mem hl, rfl⟩

theorem depRel_target_node {g : DepGraph} {d v : String}
    (h : depRel g d v) : v ∈ gNodes g := by
  apply mem_gNodes_of_deps_ne
  intro he
  rw [depRel, he] at h
  simp at h

/-! ### Before: strict precedence in a list -/

theorem before_mem_left {l : List String} {d v : String} (h : Before l d v) : d ∈ l := by
  obtain ⟨pre, post, hl, hd⟩ := h
  rw [hl]; exact List.mem_append.mpr (Or.inl hd)

theorem before_mem_right {l : List String} {d v : String} (h : Before l d v) : v ∈ l := by
  obtain ⟨pre, post, hl, _⟩ := h
  rw [hl]; simp

theorem before_append_one {l : List String} {d v w : String} (h : Before l d v) :
    Before (l ++ [w]) d v := by
  obtain ⟨pre, post, hl, hd⟩ := h
  exact ⟨pre, post ++ [w], by rw [hl]; simp, hd⟩

theorem nodup_decomp_unique {l pre1 pre2 post1 post2 : List String} {v : String}
    (hn : l.Nodup) (h1 : l = pre1 ++ v :: post1) (h2 : l = pre2 ++ v :: post2) :
    pre1 = pre2 := by
  subst h1
  induction pre1 generalizing pre2 with
  | nil =>
    cases pre2 with
    | nil => rfl
    | cons b t =>
      simp only [List.nil_append, List.cons_append] at h2
      obtain ⟨hb, ht⟩ := List.cons.injEq _ _ _ _ ▸ h2
      exfalso
      have : v ∈ post1 := by
        subst hb; rw [ht]; simp
      exact (List.nodup_cons.mp hn).1 this
  | cons a t ih =>
    cases pre2 with
    | nil =>
      simp only [List.nil_append, List.cons_append] at h2
      obtain ⟨hb, ht⟩ := List.cons.injEq _ _ _ _ ▸ h2
      exfalso
      have hnn := List.nodup_cons.mp (hb ▸ hn)
      exact hnn.1 (by simp)
    | cons b t2 =>
      simp only [List.cons_append] at h2
      obtain ⟨hb, ht⟩ := List.cons.injEq _ _ _ _ ▸ h2
      subst hb
      rw [ih (List.nodup_cons.mp hn).2 ht]

theorem before_irrefl {l : List String} {v : String} (hn : l.Nodup) : ¬ Before l v v := by
  rintro ⟨pre, post, hl, hv⟩
  subst hl
  have := List.nodup_append.mp hn
  exact this.2.2 hv (by simp)

theorem before_trans {l : List String} {a b c : String} (hn : l.Nodup)
    (h1 : Before l a b) (h2 : Before l b c) : Before l a c := by
  obtain ⟨pre1, post1, hl1, ha⟩ := h1
  obtain ⟨pre2, post2, hl2, hb⟩ := h2
  obtain ⟨p1, p2, hp⟩ := List.append_of_mem hb
  have hdecomp : l = p1 ++ b :: (p2 ++ c :: post2) := by
    rw [hl2, hp]; simp
  have hpre : pre1 = p1 := nodup_decomp_unique hn hl1 hdecomp
  exact ⟨pre2, post2, hl2, by rw [hp]; exact List.mem_append.mpr (Or.inl (hpre ▸ ha))⟩

/-! ### Counting lemmas for the resolver invariants -/

theorem revAdj_sub {g : DepGraph} {d w : String} (h : w ∈ revAdj g d) : w ∈ gNodes g := by
  unfold revAdj at h
  rw [List.mem_flatMap] at h
  obtain ⟨p, hp, hw⟩ := h
  obtain ⟨x, _, hxw⟩ := List.mem_map.mp hw
  exact hxw ▸ List.mem_map.mpr ⟨p, hp, rfl⟩

theorem count_map_const_self {l : List String} {a : String} :
    (l.map (fun _ => a)).count a = l.length := by
  induction l with
  | nil => rfl
  | cons b t ih => simp [List.count_cons, ih]

theorem count_map_const_ne {l : List String} {a b : String} (h : b ≠ a) :
    (l.map (fun _ => a)).count b = 0 := by
  rw [List.count_eq_zero]
  intro hb
  obtain ⟨x, _, hx⟩ := List.mem_map.mp hb
  exact h hx.symm

theorem filter_eq_length_count (l : List String) (d : String) :
    (l.filter (fun x => decide (x = d))).length = l.count d := by
  induction l with
  | nil => rfl
  | cons a t ih =>
    by_cases h : a = d <;> simp [h, List.count_cons, ih]

theorem count_eq_zero_of_not_node {t : DepGraph} {d k : String}
    (hnk : k ∉ gNodes t) : (revAdj t d).count k = 0 := by
  rw [List.count_eq_zero]
  intro hc
  exact hnk (revAdj_sub hc)

theorem revAdj_count {g : DepGraph} (hk : (gNodes g).Nodup) (d v : String) :
    (revAdj g d).count v = (gDeps g v).count d := by
  induction g with
  | nil => simp [revAdj, gDeps, List.lookup]
  | cons p t ih =>
    obtain ⟨k, ds⟩ := p
    simp only [gNodes, List.map_cons, List.nodup_cons] at hk
    rw [revAdj, List.flatMap_cons, List.count_append]
    by_cases hv : v = k
    · subst hv
      have h2 : (revAdj t d).count v = 0 :=
        count_eq_zero_of_not_node hk.1
      rw [revAdj] at h2
      rw [h2, count_map_const_self, filter_eq_length_count]
      simp [gDeps, List.lookup]
    · have h1 : ((ds.filter (fun x => decide (x = d))).map (fun _ => k)).count v = 0 :=
        count_map_const_ne hv
      rw [h1]
      have hbeq : (v == k) = false := beq_eq_false_iff_ne.mpr hv
      have h3 : gDeps ((k, ds) :: t) v = gDeps t v := by
        simp [gDeps, List.lookup, hbeq]
      rw [h3, Nat.zero_add]
      exact ih hk.2

theorem countP_not_mem_append_one {l done : List String} {node : String} (h : node ∉ done) :
    l.countP (fun d => d ∉ done)
      = l.countP (fun d => d ∉ done ++ [node]) + l.count node := by
  induction l with
  | nil => rfl
  | cons a t ih =>
    rw [List.countP_cons, List.countP_cons, List.count_cons, ih]
    by_cases ha : a = node
    · subst ha
      have c1 : decide (a ∉ done) = true := by simp [h]
      have c2 : ¬ (decide (a ∉ done ++ [a]) = true) := by simp
      have c3 : (a == a) = true := by simp
      rw [if_pos c1, if_neg c2, if_pos c3]
      omega
    · have c3 : ¬ ((a == node) = true) := by simp [ha]
      by_cases hd : a ∈ done
      · have c1 : ¬ (decide (a ∉ done) = true) := by simp [hd]
        have c2 : ¬ (decide (a ∉ done ++ [node]) = true) := by simp [hd]
        rw [if_neg c1, if_neg c2, if_neg c3]
        omega
      · have c1 : decide (a ∉ done) = true := by simp [hd]
        have c2 : decide (a ∉ done ++ [node]) = true := by simp [hd, ha]
        rw [if_pos c1, if_pos c2, if_neg c3]
        omega

theorem residualDeg_nil (g : DepGraph) (v : String) :
    residualDeg g [] v = (gDeps g v).length := by
  simp only [residualDeg]
  induction gDeps g v with
  | nil => rfl
  | cons a t ih => rw [List.countP_cons]; simp [ih]

theorem residualDeg_split {g : DepGraph} {done : List String} {v node : String}
    (h : node ∉ done) :
    residualDeg g done v
      = residualDeg g (done ++ [node]) v + (gDeps g v).count node :=
  countP_not_mem_append_one h

theorem residualDeg_zero_iff {g : DepGraph} {done : List String} {v : String} :
    residualDeg g done v = 0 ↔ ∀ d ∈ gDeps g v, d ∈ done := by
  unfold residualDeg
  rw [List.countP_eq_zero]
  constructor
  · intro h d hd
    have := h d hd
    simpa using this
  · intro h d hd
    simp [h d hd]

theorem residualDeg_pos {g : DepGraph} {done : List String} {v : String}
    (h : residualDeg g done v ≠ 0) : ∃ d ∈ gDeps g v, d ∉ done := by
  by_contra hc
  push_neg at hc
  exact h (residualDeg_zero_iff.mpr hc)

theorem sumIndNat_dec {keys : List String} {ind : String → Int} {v : String}
    (hn : keys.Nodup) (hv : v ∈ keys) (hpos : 1 ≤ ind v) :
    sumIndNat keys (fun x => if x = v then ind x - 1 else ind x) + 1
      = sumIndNat keys ind := by
  induction keys with
  | nil => simp at hv
  | cons a t ih =>
    obtain ⟨ha, hnt⟩ := List.nodup_cons.mp hn
    rcases List.mem_cons.mp hv with h1 | h2
    · subst h1
      have hmap : t.map (fun x => (if x = v then ind x - 1 else ind x).toNat)
          = t.map (fun x => (ind x).toNat) := by
        apply List.map_congr_left
        intro x hx
        have : x ≠ v := fun he => ha (he ▸ hx)
        simp [this]
      simp only [sumIndNat, List.map_cons, List.sum_cons, hmap]
      rw [if_pos trivial]
      omega
    · have hav : a ≠ v := fun he => ha (he ▸ h2)
      simp only [sumIndNat, List.map_cons, List.sum_cons, if_neg hav]
      have := ih hnt h2
      simp only [sumIndNat] at this
      omega

/-! ### Inner-loop preservation -/

theorem relaxOne_preserve {g : DepGraph} {done : List String}
    (hk : (gNodes g).Nodup) {dep : String} {rem : List String}
    {ind : String → Int} {queue : List String}
    (h : RInv g done (dep :: rem) ind queue) :
    RInv g done rem (relaxOne (ind, queue) dep).1 (relaxOne (ind, queue) dep).2 ∧
    (relaxOne (ind, queue) dep).2.length
        + sumIndNat (gNodes g) (relaxOne (ind, queue) dep).1
      ≤ queue.length + sumIndNat (gNodes g) ind := by
  have hdk : dep ∈ gNodes g := h.rem_sub dep (by simp)
  have hcnt : (dep :: rem).count dep = rem.count dep + 1 := by
    simp [List.count_cons]
  have hpos : 1 ≤ ind dep := by
    have := h.ind_eq dep hdk
    rw [hcnt] at this
    have hr : (0 : Int) ≤ (residualDeg g done dep : Int) := Int.ofNat_nonneg _
    omega
  have hind1 : (relaxOne (ind, queue) dep).1 = bumpInd ind dep := rfl
  have hq2 : (relaxOne (ind, queue) dep).2
      = if bumpInd ind dep dep = 0 then queue ++ [dep] else queue := rfl
  have hdq : dep ∉ queue := by
    intro hmem
    have := h.queue_zero dep hmem
    omega
  have hdd : dep ∉ done := by
    intro hmem
    have := h.done_rem dep hmem
    rw [hcnt] at this
    omega
  have hsum : sumIndNat (gNodes g) (bumpInd ind dep) + 1 = sumIndNat (gNodes g) ind := by
    have := @sumIndNat_dec (gNodes g) ind dep hk hdk hpos
    exact this
  constructor
  · constructor
    · intro v hv
      have he := h.ind_eq v hv
      by_cases hvd : v = dep
      · subst hvd
        rw [hind1]
        have hb : bumpInd ind v v = ind v - 1 := by simp [bumpInd]
        rw [hb]
        rw [hcnt] at he
        omega
      · rw [hind1]
        simp only [bumpInd, if_neg hvd]
        have hcv : (dep :: rem).count v = rem.count v := by
          rw [List.count_cons, if_neg (by simp [Ne.symm hvd])]
          simp
        rw [hcv] at he
        exact he
    · intro v hv
      exact h.rem_sub v (by simp [hv])
    · rw [hq2]
      by_cases hc : bumpInd ind dep dep = 0
      · rw [if_pos hc]
        exact List.Nodup.append h.queue_nodup (by simp) (by simp [List.disjoint_singleton, hdq])
      · rw [if_neg hc]; exact h.queue_nodup
    · intro v hv
      rw [hq2] at hv
      by_cases hc : bumpInd ind dep dep = 0
      · rw [if_pos hc] at hv
        rcases List.mem_append.mp hv with h1 | h2
        · exact h.queue_sub v h1
        · simp at h2; subst h2; exact hdk
      · rw [if_neg hc] at hv; exact h.queue_sub v hv
    · intro v hv
      rw [hq2] at hv
      by_cases hc : bumpInd ind dep dep = 0
      · rw [if_pos hc] at hv
        rcases List.mem_append.mp hv with h1 | h2
        · exact h.queue_disj v h1
        · simp at h2; subst h2; exact hdd
      · rw [if_neg hc] at hv; exact h.queue_disj v hv
    · intro v hv
      rw [hq2] at hv
      rw [hind1]
      by_cases hc : bumpInd ind dep dep = 0
      · rw [if_pos hc] at hv
        rcases List.mem_append.mp hv with h1 | h2
        · have hz := h.queue_zero v h1
          have hvd : v ≠ dep := fun he => hdq (he ▸ h1)
          simp only [bumpInd, if_neg hvd]
          exact hz
        · simp at h2; subst h2; exact hc
      · rw [if_neg hc] at hv
        have hz := h.queue_zero v hv
        have hvd : v ≠ dep := fun he => hdq (he ▸ hv)
        simp only [bumpInd, if_neg hvd]
        exact hz
    · intro v hv hz hvd
      rw [hind1] at hz
      rw [hq2]
      by_cases hvdep : v = dep
      · subst hvdep
        simp only [bumpInd, if_pos rfl] at hz
        have hc : bumpInd ind v v = 0 := by simp only [bumpInd, if_pos rfl]; exact hz
        rw [if_pos hc]
        simp
      · simp only [bumpInd, if_neg hvdep] at hz
        have hq := h.zero_in v hv hz hvd
        by_cases hc : bumpInd ind dep dep = 0
        · rw [if_pos hc]; exact List.mem_append.mpr (Or.inl hq)
        · rw [if_neg hc]; exact hq
    · intro v hv
      have := h.done_rem v hv
      rw [List.count_cons] at this
      omega
  · rw [hind1, hq2]
    by_cases hc : bumpInd ind dep dep = 0
    · rw [if_pos hc]
      simp only [List.length_append, List.length_singleton]
      omega
    · rw [if_neg hc]
      omega

theorem relaxAll_preserve {g : DepGraph} {done : List String}
    (hk : (gNodes g).Nodup) :
    ∀ (rem : List String) (ind : String → Int) (queue : List String),
      RInv g done rem ind queue →
      RInv g done [] (relaxAll rem ind queue).1 (relaxAll rem ind queue).2 ∧
      (relaxAll rem ind queue).2.length
          + sumIndNat (gNodes g) (relaxAll rem ind queue).1
        ≤ queue.length + sumIndNat (gNodes g) ind := by
  intro rem
  induction rem with
  | nil =>
    intro ind queue h
    exact ⟨h, le_refl _⟩
  | cons dep rest ih =>
    intro ind queue h
    have hstep := relaxOne_preserve hk h
    have heq : relaxAll (dep :: rest) ind queue
        = relaxAll rest (relaxOne (ind, queue) dep).1 (relaxOne (ind, queue) dep).2 := by
      simp [relaxAll, List.foldl_cons]
    rw [heq]
    have hrec := ih _ _ hstep.1
    exact ⟨hrec.1, le_trans hrec.2 hstep.2⟩

/-! ### Outer-loop preservation and termination -/

theorem kahnLoop_succ (g : DepGraph) (n : Nat) (s : KState) :
    kahnLoop g (n + 1) s
      = match s.queue with
        | [] => s
        | node :: rest =>
          kahnLoop g n ⟨(relaxAll (revAdj g node) s.ind rest).1,
                        (relaxAll (revAdj g node) s.ind rest).2,
                        s.sorted ++ [node]⟩ := rfl

theorem kahn_step {g : DepGraph} (hk : (gNodes g).Nodup) {s : KState}
    (h : KInv g s) {node : String} {rest : List String} (hq : s.queue = node :: rest) :
    KInv g ⟨(relaxAll (revAdj g node) s.ind rest).1,
            (relaxAll (revAdj g node) s.ind rest).2,
            s.sorted ++ [node]⟩ ∧
    pot g ⟨(relaxAll (revAdj g node) s.ind rest).1,
           (relaxAll (revAdj g node) s.ind rest).2,
           s.sorted ++ [node]⟩ + 1 ≤ pot g s := by
  have hnodeq : node ∈ s.queue := by rw [hq]; simp
  have hnk : node ∈ gNodes g := h.queue_sub node hnodeq
  have hns : node ∉ s.sorted := h.queue_disj node hnodeq
  have hz : s.ind node = 0 := h.queue_zero node hnodeq
  have hres : residualDeg g s.sorted node = 0 := by
    have := h.ind_eq node hnk
    omega
  have hdeps : ∀ d ∈ gDeps g node, d ∈ s.sorted := residualDeg_zero_iff.mp hres
  have hqnodup := h.queue_nodup
  rw [hq] at hqnodup
  have hrest_nodup : rest.Nodup := (List.nodup_cons.mp hqnodup).2
  have hnode_rest : node ∉ rest := (List.nodup_cons.mp hqnodup).1
  have hrinv : RInv g (s.sorted ++ [node]) (revAdj g node) s.ind rest := by
    constructor
    · intro v hv
      have he := h.ind_eq v hv
      rw [revAdj_count hk node v]
      rw [@residualDeg_split g s.sorted v node hns] at he
      push_cast at he ⊢
      omega
    · intro v hv
      exact revAdj_sub hv
    · exact hrest_nodup
    · intro v hv
      exact h.queue_sub v (by rw [hq]; simp [hv])
    · intro v hv
      have h1 : v ∉ s.sorted := h.queue_disj v (by rw [hq]; simp [hv])
      have h2 : v ≠ node := fun he => hnode_rest (he ▸ hv)
      simp [h1, h2]
    · intro v hv
      exact h.queue_zero v (by rw [hq]; simp [hv])
    · intro v hv hz2 hvd
      have h1 : v ∉ s.sorted := fun hm => hvd (List.mem_append.mpr (Or.inl hm))
      have h2 : v ≠ node := fun he => hvd (by simp [he])
      have := h.zero_in v hv hz2 h1
      rw [hq] at this
      rcases List.mem_cons.mp this with h3 | h3
      · exact absurd h3 h2
      · exact h3
    · intro v hv
      rw [revAdj_count hk node v, List.count_eq_zero]
      intro hmem
      rcases List.mem_append.mp hv with h1 | h1
      · exact hns (before_mem_left (h.ord v h1 node hmem))
      · simp at h1
        subst h1
        exact hns (hdeps v hmem)
  have hall := relaxAll_preserve hk (revAdj g node) s.ind rest hrinv
  constructor
  · constructor
    · exact List.Nodup.append h.sorted_nodup (by simp)
        (by simp [List.disjoint_singleton, hns])
    · intro v hv
      rcases List.mem_append.mp hv with h1 | h1
      · exact h.sorted_sub v h1
      · simp at h1; subst h1; exact hnk
    · exact hall.1.queue_nodup
    · exact hall.1.queue_sub
    · exact hall.1.queue_disj
    · exact hall.1.queue_zero
    · intro v hv
      have := hall.1.ind_eq v hv
      simpa using this
    · intro v hv hz2 hvs
      exact hall.1.zero_in v hv hz2 hvs
    · intro v hv d hd
      rcases List.mem_append.mp hv with h1 | h1
      · exact before_append_one (h.ord v h1 d hd)
      · simp at h1
        subst h1
        exact ⟨s.sorted, [], rfl, hdeps d hd⟩
  · have hlen : s.queue.length = rest.length + 1 := by rw [hq]; simp
    simp only [pot] at *
    omega

theorem kahn_run {g : DepGraph} (hk : (gNodes g).Nodup) :
    ∀ (fuel : Nat) (s : KState), KInv g s → pot g s ≤ fuel →
      KInv g (kahnLoop g fuel s) ∧ (kahnLoop g fuel s).queue = [] := by
  intro fuel
  induction fuel with
  | zero =>
    intro s h hp
    have hql : s.queue.length = 0 := by
      simp only [pot] at hp
      omega
    have hqe : s.queue = [] := List.length_eq_zero.mp hql
    exact ⟨h, hqe⟩
  | succ n ih =>
    intro s h hp
    rw [kahnLoop_succ]
    cases hq : s.queue with
    | nil => exact ⟨h, hq⟩
    | cons node rest =>
      have hstep := kahn_step hk h hq
      apply ih _ hstep.1
      have := hstep.2
      omega

/-! ### Initial state and final state of the resolver -/

theorem initInd_eq (g : DepGraph) (v : String) :
    initInd g v = (residualDeg g [] v : Int) := by
  rw [residualDeg_nil]
  rfl

theorem init_kinv {g : DepGraph} (hk : (gNodes g).Nodup) :
    KInv g ⟨initInd g, initQueue g, []⟩ := by
  constructor
  · exact List.nodup_nil
  · intro v hv; simp at hv
  · exact hk.sublist (List.Sublist.map Prod.fst (List.filter_sublist g))
  · intro v hv
    obtain ⟨p, hp, rfl⟩ := List.mem_map.mp hv
    exact List.mem_map.mpr ⟨p, List.mem_of_mem_filter hp, rfl⟩
  · intro v hv; simp
  · intro v hv
    obtain ⟨p, hp, rfl⟩ := List.mem_map.mp hv
    have hpg := List.mem_of_mem_filter hp
    have hfp := List.of_mem_filter hp
    have hlen : p.2.length = 0 := by simpa using hfp
    have hdeps : gDeps g p.1 = p.2 := gDeps_of_mem hk (by cases p; exact hpg)
    simp [initInd, hdeps, hlen]
  · intro v hv
    exact initInd_eq g v
  · intro v hv hz hvs
    obtain ⟨p, hpg, rfl⟩ := List.mem_map.mp hv
    have hdeps : gDeps g p.1 = p.2 := gDeps_of_mem hk (by cases p; exact hpg)
    have hz2 : ((gDeps g p.1).length : Int) = 0 := hz
    rw [hdeps] at hz2
    have hlen : p.2.length = 0 := by exact_mod_cast hz2
    exact List.mem_map.mpr ⟨p, List.mem_filter.mpr ⟨hpg, by simpa using hlen⟩, rfl⟩
  · intro v hv; simp at hv

theorem pot_init_le {g : DepGraph} (hk : (gNodes g).Nodup) :
    pot g ⟨initInd g, initQueue g, []⟩ ≤ kahnFuel g := by
  have h1 : (initQueue g).length ≤ g.length := by
    unfold initQueue
    rw [List.length_map]
    exact List.length_filter_le _ _
  have h2 : sumIndNat (gNodes g) (initInd g) = (g.map (fun p => p.2.length)).sum := by
    unfold sumIndNat gNodes
    rw [List.map_map]
    apply congrArg List.sum
    apply List.map_congr_left
    intro p hp
    have hdeps : gDeps g p.1 = p.2 := gDeps_of_mem hk (by cases p; exact hp)
    simp [initInd, hdeps]
  simp only [pot, kahnFuel]
  omega

theorem kahnFinal_spec {g : DepGraph} (hk : (gNodes g).Nodup) :
    KInv g (kahnFinal g) ∧ (kahnFinal g).queue = [] :=
  kahn_run hk (kahnFuel g) _ (init_kinv hk) (pot_init_le hk)

theorem topological_sort_eq (g : DepGraph) :
    topological_sort g
      = if (kahnFinal g).sorted.length ≠ g.length then
          Except.error "Circular dependency detected in KPIs"
        else Except.ok (kahnFinal g).sorted := rfl

theorem transGen_target {g : DepGraph} {a b : String}
    (h : Relation.TransGen (depRel g) a b) : b ∈ gNodes g := by
  induction h with
  | single hr => exact depRel_target_node hr
  | tail _ hr _ => exact depRel_target_node hr

/-- Under acyclicity and closedness, every graph node enters the sorted
output of the while-loop. -/
theorem kahn_complete {g : DepGraph} (hk : (gNodes g).Nodup)
    (hc : ClosedGraph g) (ha : Acyclic g) :
    ∀ v ∈ gNodes g, v ∈ (kahnFinal g).sorted := by
  by_contra hx
  push_neg at hx
  obtain ⟨v0, hv0k, hv0s⟩ := hx
  classical
  set T : Finset String :=
    (gNodes g).toFinset.filter (fun v => v ∉ (kahnFinal g).sorted) with hT
  have hT0 : v0 ∈ T := by
    rw [hT]
    simp [hv0k, hv0s]
  have hmemT : ∀ v, v ∈ T ↔ v ∈ gNodes g ∧ v ∉ (kahnFinal g).sorted := by
    intro v
    rw [hT]
    simp
  have hstep : ∀ v, v ∈ T → ∃ d, d ∈ T ∧ depRel g d v := by
    intro v hv
    obtain ⟨hvk, hvs⟩ := (hmemT v).mp hv
    have hinv := (kahnFinal_spec hk).1
    have hqe := (kahnFinal_spec hk).2
    have hnz : (kahnFinal g).ind v ≠ 0 := by
      intro h0
      have := hinv.zero_in v hvk h0 hvs
      rw [hqe] at this
      simp at this
    have hres : residualDeg g (kahnFinal g).sorted v ≠ 0 := by
      intro h0
      have := hinv.ind_eq v hvk
      rw [h0] at this
      exact hnz (by simpa using this)
    obtain ⟨d, hd, hds⟩ := residualDeg_pos hres
    have hdk : d ∈ gNodes g := hc v hvk d hd
    exact ⟨d, (hmemT d).mpr ⟨hdk, hds⟩, hd⟩
  have Fex : ∀ x : {v // v ∈ T}, ∃ y : {v // v ∈ T}, depRel g y.1 x.1 := by
    rintro ⟨v, hv⟩
    obtain ⟨d, hdT, hdr⟩ := hstep v hv
    exact ⟨⟨d, hdT⟩, hdr⟩
  choose F hF using Fex
  set seq : Nat → {v // v ∈ T} := fun n => F^[n] ⟨v0, hT0⟩ with hseq
  have hseq_succ : ∀ n, seq (n + 1) = F (seq n) := by
    intro n
    rw [hseq]
    simp [Function.iterate_succ_apply']
  have hchain : ∀ m n, m < n → Relation.TransGen (depRel g) (seq n).1 (seq m).1 := by
    intro m n hmn
    induction n, hmn using Nat.le_induction with
    | base =>
      rw [hseq_succ]
      exact Relation.TransGen.single (hF (seq m))
    | succ n hmn ih =>
      rw [hseq_succ]
      exact Relation.TransGen.head (hF (seq n)) ih
  have hcard : Fintype.card {v // v ∈ T} < Fintype.card (Fin (T.card + 1)) := by
    simp [Fintype.card_coe]
  obtain ⟨i, j, hij, hijeq⟩ :=
    Fintype.exists_ne_map_eq_of_card_lt (fun i : Fin (T.card + 1) => seq i.1) hcard
  rcases Nat.lt_or_ge i.1 j.1 with hlt | hge
  · have := hchain i.1 j.1 hlt
    rw [hijeq] at this
    exact ha _ this
  · have hlt2 : j.1 < i.1 := by
      rcases Nat.lt_or_ge j.1 i.1 with h | h
      · exact h
      · exact absurd (Fin.val_injective (Nat.le_antisymm h hge)) hij
    have := hchain j.1 i.1 hlt2
    rw [hijeq] at this
    exact ha _ this

theorem kahn_perm_of_length {g : DepGraph} (hk : (gNodes g).Nodup)
    (hlen : (kahnFinal g).sorted.length = g.length) :
    (kahnFinal g).sorted.Perm (gNodes g) := by
  have hinv := (kahnFinal_spec hk).1
  have hsub : (kahnFinal g).sorted ⊆ gNodes g := fun v hv => hinv.sorted_sub v hv
  refine (List.subperm_of_subset hinv.sorted_nodup hsub).perm_of_length_le ?_
  have : (gNodes g).length = g.length := by simp [gNodes]
  omega

theorem before_of_transGen {g : DepGraph} (hk : (gNodes g).Nodup)
    (hall : ∀ w ∈ gNodes g, w ∈ (kahnFinal g).sorted)
    {a b : String} (h : Relation.TransGen (depRel g) a b) :
    Before (kahnFinal g).sorted a b := by
  have hinv := (kahnFinal_spec hk).1
  induction h with
  | single hr => exact hinv.ord _ (hall _ (depRel_target_node hr)) _ hr
  | tail hab hr ih =>
    exact before_trans hinv.sorted_nodup ih
      (hinv.ord _ (hall _ (depRel_target_node hr)) _ hr)

theorem topo_error_of_cycle {g : DepGraph} (hk : (gNodes g).Nodup)
    {v : String} (hcyc : Relation.TransGen (depRel g) v v) :
    topological_sort g = Except.error "Circular dependency detected in KPIs" := by
  rw [topological_sort_eq]
  by_cases hlen : (kahnFinal g).sorted.length = g.length
  · exfalso
    have hperm := kahn_perm_of_length hk hlen
    have hall : ∀ w ∈ gNodes g, w ∈ (kahnFinal g).sorted := fun w hw =>
      hperm.mem_iff.mpr hw
    exact before_irrefl (kahnFinal_spec hk).1.sorted_nodup
      (before_of_transGen hk hall hcyc)
  · rw [if_pos hlen]

theorem topo_ok_of_acyclic {g : DepGraph} (hk : (gNodes g).Nodup)
    (hc : ClosedGraph g) (ha : Acyclic g) :
    topological_sort g = Except.ok (kahnFinal g).sorted ∧
    (kahnFinal g).sorted.Perm (gNodes g) := by
  have hinv := (kahnFinal_spec hk).1
  have hsub : (kahnFinal g).sorted ⊆ gNodes g := fun v hv => hinv.sorted_sub v hv
  have hsup : gNodes g ⊆ (kahnFinal g).sorted := fun v hv => kahn_complete hk hc ha v hv
  have hperm := (List.subperm_of_subset hinv.sorted_nodup hsub).antisymm
    (List.subperm_of_subset hk hsup)
  have hlen : (kahnFinal g).sorted.length = g.length := by
    rw [hperm.length_eq]
    simp [gNodes]
  exact ⟨by rw [topological_sort_eq, if_neg (fun hne => hne hlen)], hperm⟩

/-- A strictly monotone rank certificate excludes dependency cycles. -/
theorem acyclic_of_rank {g : DepGraph} (rank : String → Nat)
    (h : ∀ v, ∀ d ∈ gDeps g v, rank d < rank v) : Acyclic g := by
  intro v hcyc
  have hmono : ∀ a b, Relation.TransGen (depRel g) a b → rank a < rank b := by
    intro a b htg
    induction htg with
    | single hr => exact h _ _ hr
    | tail _ hr ih => exact lt_trans ih (h _ _ hr)
  exact lt_irrefl _ (hmono v v hcyc)

/-! ### Dict-semantics lemmas -/

theorem lookup_map_update {α : Type} (l : List (String × α)) (k k2 : String) (v : α) :
    ((l.map (fun p => if p.1 = k then (k, v) else p)).lookup k2)
      = if k2 = k then ((l.lookup k).map (fun _ => v)) else l.lookup k2 := by
  induction l with
  | nil => by_cases h2 : k2 = k <;> simp [List.lookup, h2]
  | cons p t ih =>
    obtain ⟨a, b⟩ := p
    rw [List.map_cons]
    by_cases hp : a = k
    · subst hp
      rw [show (if (a, b).1 = a then (a, v) else (a, b)) = (a, v) from by simp]
      by_cases h2 : k2 = a
      · subst h2
        simp [List.lookup, ih]
      · have hb : (k2 == a) = false := beq_eq_false_iff_ne.mpr h2
        simp [List.lookup, hb, ih, h2]
    · rw [show (if (a, b).1 = k then (k, v) else (a, b)) = (a, b) from by simp [hp]]
      by_cases h3 : k2 = a
      · subst h3
        simp [List.lookup, hp]
      · have hb : (k2 == a) = false := beq_eq_false_iff_ne.mpr h3
        have hb2 : (k == a) = false := beq_eq_false_iff_ne.mpr (fun he => hp he.symm)
        simp [List.lookup, hb, hb2, ih]

theorem lookup_append_single {α : Type} (l : List (String × α)) (k k2 : String) (v : α) :
    (l ++ [(k, v)]).lookup k2
      = match l.lookup k2 with
        | some w => some w
        | none => if k2 = k then some v else none := by
  induction l with
  | nil =>
    by_cases h2 : k2 = k
    · subst h2; simp [List.lookup]
    · have hb : (k2 == k) = false := beq_eq_false_iff_ne.mpr h2
      simp [List.lookup, hb, h2]
  | cons p t ih =>
    by_cases h3 : k2 = p.1
    · subst h3
      simp [List.lookup]
    · have hb : (k2 == p.1) = false := beq_eq_false_iff_ne.mpr h3
      simp [List.lookup, hb, ih]

theorem dictInsert_lookup {α : Type} (l : List (String × α)) (k k2 : String) (v : α) :
    (dictInsert l k v).lookup k2 = if k2 = k then some v else l.lookup k2 := by
  unfold dictInsert
  by_cases hs : (l.lookup k).isSome
  · rw [if_pos hs, lookup_map_update]
    by_cases h2 : k2 = k
    · subst h2
      obtain ⟨w, hw⟩ := Option.isSome_iff_exists.mp hs
      simp [hw]
    · simp [h2]
  · rw [if_neg hs, lookup_append_single]
    by_cases h2 : k2 = k
    · subst h2
      have hnone : l.lookup k2 = none := Option.not_isSome_iff_eq_none.mp hs
      simp [hnone]
    · cases hl : l.lookup k2 <;> simp [h2]

theorem dictInsert_mem {α : Type} {l : List (String × α)} {k : String} {v : α}
    {p : String × α} (h : p ∈ dictInsert l k v) : p ∈ l ∨ p = (k, v) := by
  unfold dictInsert at h
  by_cases hs : (l.lookup k).isSome
  · rw [if_pos hs] at h
    obtain ⟨q, hq, hpq⟩ := List.mem_map.mp h
    by_cases hqk : q.1 = k
    · right; rw [← hpq]; simp [hqk]
    · left; rw [← hpq]; simpa [hqk] using hq
  · rw [if_neg hs] at h
    rcases List.mem_append.mp h with h1 | h1
    · exact Or.inl h1
    · right; simpa using h1

/-! ### Mutation scoping of the temporal calculator (dataframe effects) -/

theorem temporal_caller_df (evalFn : EvalFn) (df : DataFrame)
    (avail : List (String × KpiStatus)) (order : List String) :
    (calculate_kpis_temporal evalFn df avail order).2 = (detect_date_column df).2 := by
  unfold calculate_kpis_temporal
  rcases h : detect_date_column df with ⟨o, df1⟩
  cases o <;> simp

theorem convert_names (df : DataFrame) (c : String) :
    (convertColToDatetime df c).colNames = df.colNames := by
  unfold convertColToDatetime DataFrame.colNames
  rw [List.map_map]
  apply List.map_congr_left
  intro col _
  by_cases h : col.name = c <;> simp [h]

theorem convert_preserve_col {df : DataFrame} {c : String} {col : Col}
    (h : col ∈ df.cols) (hne : col.name ≠ c) :
    col ∈ (convertColToDatetime df c).cols := by
  unfold convertColToDatetime
  exact List.mem_map.mpr ⟨col, h, by simp [hne]⟩

theorem detectLoop_names :
    ∀ (names : List String) (df : DataFrame),
      ((detectLoop names df).2).colNames = df.colNames := by
  intro names
  induction names with
  | nil => intro df; rfl
  | cons c rest ih =>
    intro df
    unfold detectLoop
    by_cases hh : dateNameHint c
    · rw [if_pos hh]
      by_cases hc : 2 * notnaCount (convertColToDatetime df c) c
          > (convertColToDatetime df c).nrows
      · rw [if_pos hc]
        exact convert_names df c
      · rw [if_neg hc, ih]
        exact convert_names df c
    · rw [if_neg hh]
      exact ih df

theorem detectLoop_preserve :
    ∀ (names : List String) (df : DataFrame) (col : Col),
      col ∈ df.cols → ¬ dateNameHint col.name →
      col ∈ ((detectLoop names df).2).cols := by
  intro names
  induction names with
  | nil => intro df col hm _; exact hm
  | cons c rest ih =>
    intro df col hm hnh
    unfold detectLoop
    by_cases hh : dateNameHint c
    · have hne : col.name ≠ c := fun he => hnh (he ▸ hh)
      have hm2 := convert_preserve_col hm hne
      rw [if_pos hh]
      by_cases hc : 2 * notnaCount (convertColToDatetime df c) c
          > (convertColToDatetime df c).nrows
      · rw [if_pos hc]
        exact hm2
      · rw [if_neg hc]
        exact ih _ col hm2 hnh
    · rw [if_neg hh]
      exact ih df col hm hnh

theorem detect_names (df : DataFrame) :
    ((detect_date_column df).2).colNames = df.colNames := by
  unfold detect_date_column
  rcases h : detectLoop df.colNames df with ⟨o, df2⟩
  have := detectLoop_names df.colNames df
  rw [h] at this
  cases o <;> simpa using this

theorem detect_preserve {df : DataFrame} {col : Col}
    (hm : col ∈ df.cols) (hnh : ¬ dateNameHint col.name) :
    col ∈ ((detect_date_column df).2).cols := by
  unfold detect_date_column
  rcases h : detectLoop df.colNames df with ⟨o, df2⟩
  have := detectLoop_preserve df.colNames df col hm hnh
  rw [h] at this
  cases o <;> simpa using this

theorem has_min_names (df : DataFrame) (c p : String) (n : Nat) :
    ((has_minimum_time_coverage df c p n).2).colNames = df.colNames := by
  unfold has_minimum_time_coverage
  by_cases hc : c ∉ df.colNames
  · rw [if_pos hc]
  · rw [if_neg hc]
    by_cases hp : p = "month"
    · simp [hp, convert_names]
    · by_cases hw : p = "week" <;> simp [hp, hw, convert_names]

theorem has_min_preserve {df : DataFrame} {c : String} {col : Col} (p : String) (n : Nat)
    (hm : col ∈ df.cols) (hne : col.name ≠ c) :
    col ∈ ((has_minimum_time_coverage df c p n).2).cols := by
  unfold has_minimum_time_coverage
  by_cases hc : c ∉ df.colNames
  · rw [if_pos hc]; exact hm
  · rw [if_neg hc]
    have := convert_preserve_col hm hne
    by_cases hp : p = "month"
    · simpa [hp] using this
    · by_cases hw : p = "week" <;> simpa [hp, hw] using this

/-! ### Fold lemmas for the evaluator and the temporal calculator -/

theorem periodFold_lookup {R : Type} (F : Date → R) :
    ∀ (ps : List Date) (init : List (String × R)) (key : String) (entry : R),
      (ps.foldl (fun acc p => dictInsert acc (pyStrTimestamp p) (F p)) init).lookup key
        = some entry →
      (∃ p ∈ ps, key = pyStrTimestamp p ∧ entry = F p) ∨ init.lookup key = some entry := by
  intro ps
  induction ps with
  | nil => intro init key entry h; exact Or.inr h
  | cons p rest ih =>
    intro init key entry h
    rw [List.foldl_cons] at h
    rcases ih _ key entry h with h1 | h1
    · obtain ⟨p2, hp2, hk, he⟩ := h1
      exact Or.inl ⟨p2, by simp [hp2], hk, he⟩
    · rw [dictInsert_lookup] at h1
      by_cases hk : key = pyStrTimestamp p
      · rw [if_pos hk] at h1
        injection h1 with h1
        exact Or.inl ⟨p, by simp, hk, h1.symm⟩
      · rw [if_neg hk] at h1
        exact Or.inr h1

theorem periodFold_keep {R : Type} (F : Date → R) :
    ∀ (ps : List Date) (init : List (String × R)) (key : String),
      ((init.lookup key)).isSome →
      ((ps.foldl (fun acc p => dictInsert acc (pyStrTimestamp p) (F p)) init).lookup
        key).isSome := by
  intro ps
  induction ps with
  | nil => intro init key h; exact h
  | cons p rest ih =>
    intro init key h
    rw [List.foldl_cons]
    apply ih
    rw [dictInsert_lookup]
    by_cases hk : key = pyStrTimestamp p
    · rw [if_pos hk]; rfl
    · rw [if_neg hk]; exact h

theorem periodFold_isSome {R : Type} (F : Date → R) :
    ∀ (ps : List Date) (init : List (String × R)) (p : Date), p ∈ ps →
      ((ps.foldl (fun acc p2 => dictInsert acc (pyStrTimestamp p2) (F p2)) init).lookup
        (pyStrTimestamp p)).isSome := by
  intro ps
  induction ps with
  | nil => intro init p h; simp at h
  | cons p0 rest ih =>
    intro init p h
    rw [List.foldl_cons]
    rcases List.mem_cons.mp h with h1 | h1
    · subst h1
      apply periodFold_keep
      rw [dictInsert_lookup, if_pos rfl]
      rfl
    · exact ih _ p h1

theorem evalOneKpi_error (evalFn : EvalFn) (df : DataFrame)
    (avail : List (String × KpiStatus)) (acc : List (String × KpiResultData))
    (k : String) (h : (evalOneKpi evalFn df avail acc k).success = false) :
    ((evalOneKpi evalFn df avail acc k).error).isSome := by
  revert h
  unfold evalOneKpi
  dsimp only
  split
  · intro _; rfl
  · split
    · intro _; rfl
    · split
      · intro _; rfl
      · split
        · intro _; rfl
        · intro h; simp at h

theorem calcFold_isSome (evalFn : EvalFn) (df : DataFrame)
    (avail : List (String × KpiStatus)) :
    ∀ (order : List String) (init : List (String × KpiResultData)) (k : String),
      (k ∈ order ∨ (init.lookup k).isSome) →
      ((order.foldl (fun acc k2 => dictInsert acc k2 (evalOneKpi evalFn df avail acc k2))
        init).lookup k).isSome := by
  intro order
  induction order with
  | nil =>
    intro init k h
    rcases h with h | h
    · simp at h
    · exact h
  | cons k0 rest ih =>
    intro init k h
    rw [List.foldl_cons]
    apply ih
    rcases h with h | h
    · rcases List.mem_cons.mp h with h1 | h1
      · subst h1
        right
        rw [dictInsert_lookup, if_pos rfl]
        rfl
      · exact Or.inl h1
    · right
      rw [dictInsert_lookup]
      by_cases hk : k = k0
      · rw [if_pos hk]; rfl
      · rw [if_neg hk]; exact h

theorem calcFold_error (evalFn : EvalFn) (df : DataFrame)
    (avail : List (String × KpiStatus)) :
    ∀ (order : List String) (init : List (String × KpiResultData)),
      (∀ k e, init.lookup k = some e → e.success = false → e.error.isSome) →
      ∀ k e,
        (order.foldl (fun acc k2 => dictInsert acc k2 (evalOneKpi evalFn df avail acc k2))
          init).lookup k = some e →
        e.success = false → e.error.isSome := by
  intro order
  induction order with
  | nil => intro init hinit k e h; exact hinit k e h
  | cons k0 rest ih =>
    intro init hinit k e h
    rw [List.foldl_cons] at h
    refine ih _ ?_ k e h
    intro k2 e2 h2 hs2
    rw [dictInsert_lookup] at h2
    by_cases hk : k2 = k0
    · rw [if_pos hk] at h2
      injection h2 with h2
      subst h2
      exact evalOneKpi_error evalFn df avail init k0 hs2
    · rw [if_neg hk] at h2
      exact hinit k2 e2 h2 hs2

/-! ### Legacy fuzzy-matcher lemmas -/

theorem legacyFoldBest (scorer : String → String → Nat) (q : String) :
    ∀ (cs : List String) (b : String × Nat),
      b.2 ≤ (cs.foldl (fun best x =>
        if scorer q x > best.2 then (x, scorer q x) else best) b).2 ∧
      ∀ x ∈ cs, scorer q x ≤ (cs.foldl (fun best x =>
        if scorer q x > best.2 then (x, scorer q x) else best) b).2 := by
  intro cs
  induction cs with
  | nil => intro b; exact ⟨le_refl _, by intro x hx; simp at hx⟩
  | cons x0 cs2 ih =>
    intro b
    rw [List.foldl_cons]
    set b2 := if scorer q x0 > b.2 then (x0, scorer q x0) else b with hb2
    have hstep1 : b.2 ≤ b2.2 := by
      rw [hb2]
      by_cases hgt : scorer q x0 > b.2
      · rw [if_pos hgt]; exact le_of_lt hgt
      · rw [if_neg hgt]
    have hstep2 : scorer q x0 ≤ b2.2 := by
      rw [hb2]
      by_cases hgt : scorer q x0 > b.2
      · rw [if_pos hgt]
      · rw [if_neg hgt]; omega
    refine ⟨le_trans hstep1 (ih b2).1, ?_⟩
    intro x hx
    rcases List.mem_cons.mp hx with h1 | h1
    · subst h1; exact le_trans hstep2 (ih b2).1
    · exact (ih b2).2 x h1

theorem legacy_match_column_some {scorer : String → String → Nat} {ph : String}
    {cols : List String} {threshold : Nat}
    (h : ∃ c ∈ cols, threshold ≤ scorer ph c) :
    (Legacy.match_column scorer ph cols threshold none).isSome := by
  obtain ⟨c, hc, hs⟩ := h
  cases cols with
  | nil => simp at hc
  | cons c0 cs =>
    unfold Legacy.match_column Legacy.bestMatch
    have hb := legacyFoldBest scorer ph cs (c0, scorer ph c0)
    have hge : threshold ≤ (cs.foldl (fun best x =>
        if scorer ph x > best.2 then (x, scorer ph x) else best) (c0, scorer ph c0)).2 := by
      rcases List.mem_cons.mp hc with h1 | h1
      · subst h1; exact le_trans hs hb.1
      · exact le_trans hs (hb.2 c h1)
    simp only []
    rw [if_pos hge]
    rfl

theorem scanAll_true (m : String → Option String) :
    ∀ (phs : List String) (mc : List (String × Option String)) (b : Bool),
      (phs.foldl (fun p ph => (dictInsert p.1 ph (m ph), p.2 && (m ph).isSome)) (mc, b)).2
        = (b && phs.all (fun ph => (m ph).isSome)) := by
  intro phs
  induction phs with
  | nil => intro mc b; simp
  | cons ph rest ih =>
    intro mc b
    rw [List.foldl_cons, ih]
    simp [Bool.and_assoc]

/-! ### Matching-stage lemmas -/

theorem phScan_all (m : String → Option String) (phs : List String) :
    (phScan m phs).2 = phs.all (fun ph => (m ph).isSome) := by
  unfold phScan
  rw [scanAll_true]
  simp

theorem derivedStep_mem {column_names : List String}
    {base_status : List (String × KpiStatus)}
    {acc : List (String × KpiStatus) × DataFrame} {kp : String × KpiInfo}
    {p : String × KpiStatus}
    (h : p ∈ (derivedStep column_names base_status acc kp).1) :
    p ∈ acc.1 ∨ (p.1 = kp.1 ∧ p.2.kpi_info = kp.2 ∧
      (p.2.calculable = true →
        kp.2.dependencies.all (fun dep => depCalculable base_status dep) = true)) := by
  unfold derivedStep at h
  dsimp only at h
  by_cases hall : kp.2.dependencies.all (fun dep => depCalculable base_status dep) = true
  · rw [if_pos hall] at h
    revert h
    split
    · split
      · split
        · intro h
          rcases dictInsert_mem h with h1 | h1
          · exact Or.inl h1
          · exact Or.inr (by rw [h1]; exact ⟨rfl, rfl, fun _ => hall⟩)
        · intro h
          rcases dictInsert_mem h with h1 | h1
          · exact Or.inl h1
          · exact Or.inr (by rw [h1]; exact ⟨rfl, rfl, fun _ => hall⟩)
      · intro h
        rcases dictInsert_mem h with h1 | h1
        · exact Or.inl h1
        · exact Or.inr (by rw [h1]; exact ⟨rfl, rfl, fun _ => hall⟩)
    · intro h
      rcases dictInsert_mem h with h1 | h1
      · exact Or.inl h1
      · exact Or.inr (by rw [h1]; exact ⟨rfl, rfl, fun _ => hall⟩)
  · rw [if_neg hall] at h
    rcases dictInsert_mem h with h1 | h1
    · exact Or.inl h1
    · right
      rw [h1]
      exact ⟨rfl, rfl, fun hc => absurd hc (by simp)⟩

/-- Every status surviving the filter of match_derived_kpis is
calculable and all its declared dependencies are calculable in the base
status map. -/
theorem match_derived_deps_ok (column_names : List String)
    (derived_kpis : List (String × KpiInfo))
    (base_status : List (String × KpiStatus)) (df : DataFrame) :
    ∀ p ∈ (match_derived_kpis column_names derived_kpis base_status df).1,
      p.2.calculable = true ∧
      ∀ dep ∈ p.2.kpi_info.dependencies, depCalculable base_status dep = true := by
  intro p hp
  unfold match_derived_kpis at hp
  have hf := List.mem_filter.mp hp
  have hcal : p.2.calculable = true := by simpa using hf.2
  have inv : ∀ (items : List (String × KpiInfo)) (acc : List (String × KpiStatus) × DataFrame),
      (∀ q ∈ acc.1, q.2.calculable = true →
        ∀ dep ∈ q.2.kpi_info.dependencies, depCalculable base_status dep = true) →
      ∀ q ∈ (items.foldl (derivedStep column_names base_status) acc).1,
        q.2.calculable = true →
        ∀ dep ∈ q.2.kpi_info.dependencies, depCalculable base_status dep = true := by
    intro items
    induction items with
    | nil => intro acc hacc q hq; exact hacc q hq
    | cons kp rest ih =>
      intro acc hacc q hq
      rw [List.foldl_cons] at hq
      refine ih _ ?_ q hq
      intro q2 hq2 hc2 dep hdep
      rcases derivedStep_mem hq2 with h1 | h1
      · exact hacc q2 h1 hc2 dep hdep
      · obtain ⟨_, hki, himp⟩ := h1
        rw [hki] at hdep
        exact List.all_eq_true.mp (himp hc2) dep hdep
  exact ⟨hcal, inv derived_kpis ([], df) (by intro q hq; simp at hq) p hf.1 hcal⟩

theorem foldInsert_lookup {α β : Type} (key : β → String) (val : β → α) :
    ∀ (items : List β) (init : List (String × α)) (k : String) (e : α),
      (items.foldl (fun acc x => dictInsert acc (key x) (val x)) init).lookup k = some e →
      (∃ x ∈ items, k = key x ∧ e = val x) ∨ init.lookup k = some e := by
  intro items
  induction items with
  | nil => intro init k e h; exact Or.inr h
  | cons x rest ih =>
    intro init k e h
    rw [List.foldl_cons] at h
    rcases ih _ k e h with h1 | h1
    · obtain ⟨x2, hx2, hk, he⟩ := h1
      exact Or.inl ⟨x2, by simp [hx2], hk, he⟩
    · rw [dictInsert_lookup] at h1
      by_cases hk : k = key x
      · rw [if_pos hk] at h1
        injection h1 with h1
        exact Or.inl ⟨x, by simp, hk, h1.symm⟩
      · rw [if_neg hk] at h1
        exact Or.inr h1

theorem foldInsert_lookup_none {α β : Type} (key : β → String)
    (val : List (String × α) → β → α) :
    ∀ (items : List β) (init : List (String × α)) (k : String),
      (∀ x ∈ items, key x ≠ k) → init.lookup k = none →
      (items.foldl (fun acc x => dictInsert acc (key x) (val acc x)) init).lookup k
        = none := by
  intro items
  induction items with
  | nil => intro init k _ h; exact h
  | cons x rest ih =>
    intro init k hkeys h
    rw [List.foldl_cons]
    refine ih _ k (fun y hy => hkeys y (by simp [hy])) ?_
    rw [dictInsert_lookup, if_neg (fun he => hkeys x (by simp) he.symm)]
    exact h

theorem nodup_key_unique {α : Type} {l : List (String × α)}
    (hk : (l.map Prod.fst).Nodup) {k : String} {a b : α}
    (h1 : (k, a) ∈ l) (h2 : (k, b) ∈ l) : a = b := by
  have e1 := mem_lookup_of_nodup hk h1
  have e2 := mem_lookup_of_nodup hk h2
  rw [e1] at e2
  exact Option.some.inj e2

theorem match_base_lookup_none {column_names : List String}
    {base_kpis : List (String × KpiInfo)} {llm_mapping : List (String × Option String)}
    {k : String} (hk : ∀ kp ∈ base_kpis, kp.1 ≠ k) :
    (match_base_kpis column_names base_kpis llm_mapping).lookup k = none := by
  unfold match_base_kpis
  exact foldInsert_lookup_none Prod.fst
    (fun (_ : List (String × KpiStatus)) (kp : String × KpiInfo) =>
      (⟨(phScan (llmMatch column_names llm_mapping) kp.2.columns).2,
        (phScan (llmMatch column_names llm_mapping) kp.2.columns).1, kp.2⟩ : KpiStatus))
    base_kpis [] k hk rfl

/-- In the legacy engine, a KPI whose every placeholder reaches the
fuzzy threshold against some normalized column is calculable, with the
semantic layer disabled. -/
theorem legacy_base_calculable (scorer : String → String → Nat)
    (column_names : List String) (base_kpis : List (String × KpiInfo)) (threshold : Nat)
    (h : ∀ kp ∈ base_kpis, ∀ ph ∈ kp.2.columns,
      ∃ c ∈ normalize_columns column_names,
        threshold ≤ scorer (normalize_column_name ph) c) :
    ∀ p ∈ Legacy.match_base_kpis scorer column_names base_kpis threshold none,
      p.2.calculable = true := by
  intro p hp
  unfold Legacy.match_base_kpis at hp
  have inv : ∀ (items : List (String × KpiInfo)),
      (∀ kp ∈ items, ∀ ph ∈ kp.2.columns,
        ∃ c ∈ normalize_columns column_names,
          threshold ≤ scorer (normalize_column_name ph) c) →
      ∀ (init : List (String × KpiStatus)), (∀ q ∈ init, q.2.calculable = true) →
      ∀ q ∈ items.foldl (fun st kp =>
          dictInsert st kp.1
            ⟨(phScan (fun ph => Legacy.match_column scorer (normalize_column_name ph)
                (normalize_columns column_names) threshold none) kp.2.columns).2,
             (phScan (fun ph => Legacy.match_column scorer (normalize_column_name ph)
                (normalize_columns column_names) threshold none) kp.2.columns).1,
             kp.2⟩) init,
        q.2.calculable = true := by
    intro items
    induction items with
    | nil => intro _ init hinit q hq; exact hinit q hq
    | cons kp rest ih =>
      intro hitems init hinit q hq
      rw [List.foldl_cons] at hq
      refine ih (fun kp2 h2 => hitems kp2 (by simp [h2])) _ ?_ q hq
      intro q2 hq2
      rcases dictInsert_mem hq2 with h1 | h1
      · exact hinit q2 h1
      · rw [h1]
        show (phScan _ kp.2.columns).2 = true
        rw [phScan_all, List.all_eq_true]
        intro ph hph
        exact legacy_match_column_some (hitems kp (by simp) ph hph)
  exact inv base_kpis h [] (by intro q hq; simp at hq) p hp

/-! ### Character-class lemmas for the normalizer -/

theorem charOfNat_toNat {n : Nat} (h : n < 55296) : (Char.ofNat n).toNat = n := by
  have hv : n.isValidChar := Or.inl h
  simp [Char.ofNat, hv, Char.toNat, Char.ofNatAux, UInt32.toNat, BitVec.toNat_ofNatLt]

theorem lower_bounds {c : Char} (h : isAsciiLower c = true) :
    97 ≤ c.toNat ∧ c.toNat ≤ 122 := by
  simpa [isAsciiLower, Bool.and_eq_true, decide_eq_true_eq] using h

theorem upper_bounds {c : Char} (h : isAsciiUpper c = true) :
    65 ≤ c.toNat ∧ c.toNat ≤ 90 := by
  simpa [isAsciiUpper, Bool.and_eq_true, decide_eq_true_eq] using h

theorem toNat_pyUpper_lower {c : Char} (h : isAsciiLower c = true) :
    (pyUpper c).toNat = c.toNat - 32 := by
  have hb := lower_bounds h
  unfold pyUpper
  rw [if_pos h]
  exact charOfNat_toNat (by omega)

theorem toNat_pyLower_upper {c : Char} (h : isAsciiUpper c = true) :
    (pyLower c).toNat = c.toNat + 32 := by
  have hb := upper_bounds h
  unfold pyLower
  rw [if_pos h]
  exact charOfNat_toNat (by omega)

theorem pyUpper_eq_self {c : Char} (h : isAsciiLower c = false) : pyUpper c = c := by
  unfold pyUpper
  rw [if_neg (by simp [h])]

theorem pyLower_eq_self {c : Char} (h : isAsciiUpper c = false) : pyLower c = c := by
  unfold pyLower
  rw [if_neg (by simp [h])]

theorem notLower_pyUpper (c : Char) : isAsciiLower (pyUpper c) = false := by
  by_cases h : isAsciiLower c = true
  · have hb := lower_bounds h
    have ht := toNat_pyUpper_lower h
    rw [Bool.eq_false_iff]
    intro hh
    have := lower_bounds hh
    omega
  · have hf : isAsciiLower c = false := Bool.eq_false_iff.mpr h
    rw [pyUpper_eq_self hf]
    exact hf

theorem notUpper_pyLower (c : Char) : isAsciiUpper (pyLower c) = false := by
  by_cases h : isAsciiUpper c = true
  · have hb := upper_bounds h
    have ht := toNat_pyLower_upper h
    rw [Bool.eq_false_iff]
    intro hh
    have := upper_bounds hh
    omega
  · have hf : isAsciiUpper c = false := Bool.eq_false_iff.mpr h
    rw [pyLower_eq_self hf]
    exact hf

theorem pyUpper_pyUpper (c : Char) : pyUpper (pyUpper c) = pyUpper c :=
  pyUpper_eq_self (notLower_pyUpper c)

theorem pyLower_pyLower (c : Char) : pyLower (pyLower c) = pyLower c :=
  pyLower_eq_self (notUpper_pyLower c)

theorem alpha_pyUpper (c : Char) : isAsciiAlpha (pyUpper c) = isAsciiAlpha c := by
  by_cases h : isAsciiLower c = true
  · have hb := lower_bounds h
    have ht := toNat_pyUpper_lower h
    have h1 : isAsciiUpper (pyUpper c) = true := by
      simp only [isAsciiUpper, ht, Bool.and_eq_true, decide_eq_true_eq]
      omega
    have h2 : isAsciiAlpha c = true := by
      simp [isAsciiAlpha, h]
    rw [h2]
    simp [isAsciiAlpha, h1]
  · rw [pyUpper_eq_self (Bool.eq_false_iff.mpr h)]

theorem alpha_pyLower (c : Char) : isAsciiAlpha (pyLower c) = isAsciiAlpha c := by
  by_cases h : isAsciiUpper c = true
  · have hb := upper_bounds h
    have ht := toNat_pyLower_upper h
    have h1 : isAsciiLower (pyLower c) = true := by
      simp only [isAsciiLower, ht, Bool.and_eq_true, decide_eq_true_eq]
      omega
    have h2 : isAsciiAlpha c = true := by
      simp [isAsciiAlpha, h]
    rw [h2]
    simp [isAsciiAlpha, h1]
  · rw [pyLower_eq_self (Bool.eq_false_iff.mpr h)]

theorem space_code_range : ∀ n ∈ pySpaceCodes, n ≤ 32 ∨ 133 ≤ n := by decide

theorem alnum_not_space {c : Char} (h : isAlnumAscii c = true) :
    isPySpace c = false := by
  rw [Bool.eq_false_iff]
  intro hs
  have hc : c.toNat ∈ pySpaceCodes := by
    have := hs
    unfold isPySpace at this
    exact List.mem_of_elem_eq_true this
  have hrange := space_code_range _ hc
  have hb : (65 ≤ c.toNat ∧ c.toNat ≤ 90) ∨ (97 ≤ c.toNat ∧ c.toNat ≤ 122)
      ∨ (48 ≤ c.toNat ∧ c.toNat ≤ 57) := by
    rcases (by simpa [isAlnumAscii, isAsciiAlpha, Bool.or_eq_true] using h :
        (isAsciiUpper c = true ∨ isAsciiLower c = true) ∨ isAsciiDigit c = true)
      with (h1 | h1) | h1
    · exact Or.inl (upper_bounds h1)
    · exact Or.inr (Or.inl (lower_bounds h1))
    · exact Or.inr (Or.inr (by
        simpa [isAsciiDigit, Bool.and_eq_true, decide_eq_true_eq] using h1))
  omega

theorem alpha_not_space {c : Char} (h : isAsciiAlpha c = true) :
    isPySpace c = false :=
  alnum_not_space (by simp [isAlnumAscii, h])

theorem ne_space_of_alpha {c : Char} (h : isAsciiAlpha c = true) : c ≠ ' ' := by
  intro he
  rw [he] at h
  exact absurd h (by decide)

/-! ### Fixed-point lemmas for str.title over the normalizer pipeline -/

theorem titleAux_cons (f : Bool) (d : Char) (r : List Char) :
    titleAux f (d :: r)
      = (if isAsciiAlpha d then (if f then pyLower d else pyUpper d) else d)
        :: titleAux (isAsciiAlpha d) r := by
  by_cases h : isAsciiAlpha d = true
  · simp only [titleAux]
    rw [if_pos h, if_pos h, h]
  · have hf : isAsciiAlpha d = false := Bool.eq_false_iff.mpr h
    simp only [titleAux]
    rw [if_neg h, if_neg h, hf]

theorem alpha_titleChar (f : Bool) (d : Char) :
    isAsciiAlpha (if isAsciiAlpha d then (if f then pyLower d else pyUpper d) else d)
      = isAsciiAlpha d := by
  by_cases h : isAsciiAlpha d = true
  · rw [if_pos h]
    cases f
    · simp [alpha_pyUpper]
    · simp [alpha_pyLower]
  · rw [if_neg h]

theorem space_titleChar (f : Bool) (d : Char) :
    ((if isAsciiAlpha d then (if f then pyLower d else pyUpper d) else d) = ' ')
      ↔ (d = ' ') := by
  by_cases h : isAsciiAlpha d = true
  · rw [if_pos h]
    constructor
    · intro he
      exfalso
      have ha : isAsciiAlpha (if f then pyLower d else pyUpper d) = true := by
        cases f
        · simp [alpha_pyUpper, h]
        · simp [alpha_pyLower, h]
      exact ne_space_of_alpha ha he
    · intro he
      exact absurd h (by rw [he]; decide)
  · rw [if_neg h]

theorem titleAux_idem : ∀ (l : List Char) (b : Bool),
    titleAux b (titleAux b l) = titleAux b l := by
  intro l
  induction l with
  | nil => intro b; rfl
  | cons c t ih =>
    intro b
    rw [titleAux_cons, titleAux_cons, alpha_titleChar, ih]
    congr 1
    by_cases h : isAsciiAlpha c = true
    · rw [if_pos h, if_pos h]
      cases b
      · simp [pyUpper_pyUpper]
      · simp [pyLower_pyLower]
    · rw [if_neg h, if_neg h]

theorem ws_eq_self {c : Char} (h : isPySpace c = false) : wsToSpace c = c := by
  unfold wsToSpace
  rw [if_neg (by simp [h])]

theorem alpha_ws (c : Char) : isAsciiAlpha (wsToSpace c) = isAsciiAlpha c := by
  by_cases h : isPySpace c = true
  · have hna : isAsciiAlpha c = false := by
      rw [Bool.eq_false_iff]
      intro hh
      rw [alpha_not_space hh] at h
      exact Bool.false_ne_true h
    unfold wsToSpace
    rw [if_pos h, hna]
    decide
  · rw [ws_eq_self (Bool.eq_false_iff.mpr h)]

theorem ws_titleChar (f : Bool) (c : Char) :
    (if isAsciiAlpha (wsToSpace c)
      then (if f then pyLower (wsToSpace c) else pyUpper (wsToSpace c))
      else wsToSpace c)
    = wsToSpace (if isAsciiAlpha c then (if f then pyLower c else pyUpper c) else c) := by
  by_cases h : isAsciiAlpha c = true
  · have hws : wsToSpace c = c := ws_eq_self (alpha_not_space h)
    have ha : isAsciiAlpha (if f then pyLower c else pyUpper c) = true := by
      cases f
      · simp [alpha_pyUpper, h]
      · simp [alpha_pyLower, h]
    rw [hws, if_pos h, ws_eq_self (alpha_not_space ha)]
  · have hf : isAsciiAlpha c = false := Bool.eq_false_iff.mpr h
    rw [if_neg h, alpha_ws, hf]
    rw [if_neg (by simp)]

theorem titleAux_map_ws : ∀ (l : List Char) (b : Bool),
    titleAux b (l.map wsToSpace) = (titleAux b l).map wsToSpace := by
  intro l
  induction l with
  | nil => intro b; rfl
  | cons c t ih =>
    intro b
    rw [List.map_cons, titleAux_cons, titleAux_cons, List.map_cons, ws_titleChar,
      alpha_ws, ih]

theorem squeeze_head : ∀ (t : List Char) (c : Char),
    ∃ t2, squeezeSpaces (c :: t) = c :: t2 := by
  intro t
  induction t with
  | nil => intro c; exact ⟨[], rfl⟩
  | cons b r ih =>
    intro c
    by_cases h : (decide (c = ' ') && decide (b = ' ')) = true
    · have hcb : c = ' ' ∧ b = ' ' := by simpa using h
      obtain ⟨t2, ht2⟩ := ih b
      refine ⟨t2, ?_⟩
      have e : squeezeSpaces (c :: b :: r) = squeezeSpaces (b :: r) := by
        simp only [squeezeSpaces]
        rw [if_pos h]
      rw [e, ht2, hcb.1, hcb.2]
    · refine ⟨squeezeSpaces (b :: r), ?_⟩
      simp only [squeezeSpaces]
      rw [if_neg h]

theorem titleAux_squeeze : ∀ (l : List Char) (b : Bool),
    titleAux b (squeezeSpaces l) = squeezeSpaces (titleAux b l) := by
  intro l
  induction l with
  | nil => intro b; rfl
  | cons a t ih =>
    cases t with
    | nil =>
      intro b
      rw [show squeezeSpaces [a] = [a] from rfl, titleAux_cons]
      rfl
    | cons d r =>
      intro b
      by_cases hm : (decide (a = ' ') && decide (d = ' ')) = true
      · have had : a = ' ' ∧ d = ' ' := by simpa using hm
        obtain ⟨ha, hd⟩ := had
        subst ha
        subst hd
        have e1 : squeezeSpaces (' ' :: ' ' :: r) = squeezeSpaces (' ' :: r) := by
          simp only [squeezeSpaces]
          rw [if_pos (by simp)]
        rw [e1, ih b]
        rw [titleAux_cons (d := ' '), if_neg (by decide)]
        rw [show isAsciiAlpha ' ' = false from by decide]
        rw [titleAux_cons (d := ' '), if_neg (by decide)]
        rw [show isAsciiAlpha ' ' = false from by decide]
        rw [titleAux_cons (d := ' '), if_neg (by decide)]
        rw [show isAsciiAlpha ' ' = false from by decide]
        have e2 : squeezeSpaces (' ' :: ' ' :: titleAux false r)
            = squeezeSpaces (' ' :: titleAux false r) := by
          simp only [squeezeSpaces]
          rw [if_pos (by simp)]
        rw [e2]
      · have e1 : squeezeSpaces (a :: d :: r) = a :: squeezeSpaces (d :: r) := by
          simp only [squeezeSpaces]
          rw [if_neg hm]
        have hL : titleAux b (squeezeSpaces (a :: d :: r))
            = (if isAsciiAlpha a = true then (if b then pyLower a else pyUpper a) else a)
              :: squeezeSpaces ((if isAsciiAlpha d = true
                  then (if isAsciiAlpha a then pyLower d else pyUpper d) else d)
                :: titleAux (isAsciiAlpha d) r) := by
          rw [e1, titleAux_cons, ih (isAsciiAlpha a), titleAux_cons]
        have hR : squeezeSpaces (titleAux b (a :: d :: r))
            = squeezeSpaces ((if isAsciiAlpha a = true
                  then (if b then pyLower a else pyUpper a) else a)
              :: (if isAsciiAlpha d = true
                  then (if isAsciiAlpha a then pyLower d else pyUpper d) else d)
              :: titleAux (isAsciiAlpha d) r) := by
          rw [titleAux_cons, titleAux_cons]
        rw [hL, hR]
        have hcond : (decide ((if isAsciiAlpha a = true
              then (if b then pyLower a else pyUpper a) else a) = ' ')
            && decide ((if isAsciiAlpha d = true
              then (if isAsciiAlpha a then pyLower d else pyUpper d) else d) = ' '))
            = false := by
          rw [Bool.eq_false_iff]
          intro hh
          have h2 := (Bool.and_eq_true _ _).mp hh
          have ha2 : a = ' ' := (space_titleChar b a).mp (by simpa using h2.1)
          have hd2 : d = ' ' := (space_titleChar (isAsciiAlpha a) d).mp (by
            simpa using h2.2)
          exact hm (by simp [ha2, hd2])
        have e2 : squeezeSpaces ((if isAsciiAlpha a = true
              then (if b then pyLower a else pyUpper a) else a)
            :: (if isAsciiAlpha d = true
              then (if isAsciiAlpha a then pyLower d else pyUpper d) else d)
            :: titleAux (isAsciiAlpha d) r)
            = (if isAsciiAlpha a = true
              then (if b then pyLower a else pyUpper a) else a)
            :: squeezeSpaces ((if isAsciiAlpha d = true
              then (if isAsciiAlpha a then pyLower d else pyUpper d) else d)
            :: titleAux (isAsciiAlpha d) r) := by
          simp only [squeezeSpaces]
          rw [if_neg (by
            intro hh
            rw [hcond] at hh
            exact Bool.false_ne_true hh)]
        rw [e2]

theorem titleAux_dropWhile : ∀ (l : List Char),
    titleAux false (l.dropWhile isPySpace) = (titleAux false l).dropWhile isPySpace := by
  intro l
  induction l with
  | nil => rfl
  | cons c t ih =>
    by_cases h : isPySpace c = true
    · have hna : isAsciiAlpha c = false := by
        rw [Bool.eq_false_iff]
        intro hh
        rw [alpha_not_space hh] at h
        exact Bool.false_ne_true h
      rw [List.dropWhile_cons, if_pos h, ih, titleAux_cons, hna]
      rw [if_neg (by simp)]
      rw [List.dropWhile_cons, if_pos h]
    · have hc : isPySpace c = false := Bool.eq_false_iff.mpr h
      have hns : isPySpace (if isAsciiAlpha c = true
          then (if false then pyLower c else pyUpper c) else c) = false := by
        by_cases ha : isAsciiAlpha c = true
        · rw [if_pos ha]
          have : isAsciiAlpha (if false then pyLower c else pyUpper c) = true := by
            simp [alpha_pyUpper, ha]
          exact alpha_not_space this
        · rw [if_neg ha]
          exact hc
      have eL : titleAux false ((c :: t).dropWhile isPySpace)
          = titleAux false (c :: t) := by
        rw [List.dropWhile_cons, if_neg h]
      have eR : (titleAux false (c :: t)).dropWhile isPySpace
          = (if isAsciiAlpha c = true
              then (if false then pyLower c else pyUpper c) else c)
            :: titleAux (isAsciiAlpha c) t := by
        rw [titleAux_cons, List.dropWhile_cons, hns]
        simp
      rw [eL, eR, titleAux_cons]

theorem titleAux_append : ∀ (l1 l2 : List Char) (b : Bool),
    titleAux b (l1 ++ l2)
      = titleAux b l1 ++ titleAux (l1.foldl (fun _ c => isAsciiAlpha c) b) l2 := by
  intro l1
  induction l1 with
  | nil => intro l2 b; rfl
  | cons c t ih =>
    intro l2 b
    rw [List.cons_append, titleAux_cons, titleAux_cons, ih, List.cons_append,
      List.foldl_cons]

theorem titleAux_length : ∀ (l : List Char) (b : Bool),
    (titleAux b l).length = l.length := by
  intro l
  induction l with
  | nil => intro b; rfl
  | cons c t ih =>
    intro b
    rw [titleAux_cons, List.length_cons, List.length_cons, ih]

theorem titleAux_strip_fix {l : List Char} (h : titleAux false l = l) :
    titleAux false (pyStrip l) = pyStrip l := by
  have h1 : titleAux false (l.dropWhile isPySpace) = l.dropWhile isPySpace := by
    rw [titleAux_dropWhile, h]
  have hsplit : l.dropWhile isPySpace
      = ((l.dropWhile isPySpace).reverse.dropWhile isPySpace).reverse
        ++ ((l.dropWhile isPySpace).reverse.takeWhile isPySpace).reverse := by
    conv_lhs => rw [← List.reverse_reverse (l.dropWhile isPySpace),
      ← List.takeWhile_append_dropWhile (p := isPySpace)
        (l := (l.dropWhile isPySpace).reverse)]
    rw [List.reverse_append]
  rw [hsplit, titleAux_append] at h1
  exact (List.append_inj h1 (titleAux_length _ _)).1

/-! ### Subset, chain and fixed-point lemmas for collapse and strip -/

theorem squeeze_subset : ∀ (l : List Char), ∀ x ∈ squeezeSpaces l, x ∈ l := by
  intro l
  induction l with
  | nil => intro x hx; exact hx
  | cons a t ih =>
    cases t with
    | nil => intro x hx; exact hx
    | cons b r =>
      intro x hx
      by_cases hm : (decide (a = ' ') && decide (b = ' ')) = true
      · rw [show squeezeSpaces (a :: b :: r) = squeezeSpaces (b :: r) from by
          simp only [squeezeSpaces]; rw [if_pos hm]] at hx
        exact List.mem_cons_of_mem a (ih x hx)
      · rw [show squeezeSpaces (a :: b :: r) = a :: squeezeSpaces (b :: r) from by
          simp only [squeezeSpaces]; rw [if_neg hm]] at hx
        rcases List.mem_cons.mp hx with h1 | h1
        · simp [h1]
        · exact List.mem_cons_of_mem a (ih x h1)

theorem strip_subset {l : List Char} {x : Char} (hx : x ∈ pyStrip l) : x ∈ l := by
  unfold pyStrip at hx
  rw [List.mem_reverse] at hx
  have h1 := (List.dropWhile_sublist (l := (l.dropWhile isPySpace).reverse)
    (p := isPySpace)).subset hx
  rw [List.mem_reverse] at h1
  exact (List.dropWhile_sublist (l := l) (p := isPySpace)).subset h1

theorem squeeze_eq_self : ∀ (l : List Char),
    List.Chain' (fun x y => ¬(x = ' ' ∧ y = ' ')) l → squeezeSpaces l = l := by
  intro l
  induction l with
  | nil => intro _; rfl
  | cons a t ih =>
    cases t with
    | nil => intro _; rfl
    | cons b r =>
      intro h
      obtain ⟨hab, htail⟩ := List.chain'_cons.mp h
      have e : squeezeSpaces (a :: b :: r) = a :: squeezeSpaces (b :: r) := by
        simp only [squeezeSpaces]
        rw [if_neg (by simpa using hab)]
      rw [e, ih htail]

theorem squeeze_chain : ∀ (l : List Char),
    List.Chain' (fun x y => ¬(x = ' ' ∧ y = ' ')) (squeezeSpaces l) := by
  intro l
  induction l with
  | nil => exact List.chain'_nil
  | cons a t ih =>
    cases t with
    | nil => exact List.chain'_singleton a
    | cons b r =>
      by_cases hm : (decide (a = ' ') && decide (b = ' ')) = true
      · rw [show squeezeSpaces (a :: b :: r) = squeezeSpaces (b :: r) from by
          simp only [squeezeSpaces]; rw [if_pos hm]]
        exact ih
      · rw [show squeezeSpaces (a :: b :: r) = a :: squeezeSpaces (b :: r) from by
          simp only [squeezeSpaces]; rw [if_neg hm]]
        obtain ⟨t2, ht2⟩ := squeeze_head r b
        rw [ht2]
        rw [ht2] at ih
        exact List.chain'_cons.mpr ⟨by simpa using hm, ih⟩

theorem chain_swap {l : List Char}
    (h : List.Chain' (fun x y => ¬(x = ' ' ∧ y = ' ')) l) :
    List.Chain' (fun x y => ¬(x = ' ' ∧ y = ' ')) l.reverse := by
  rw [List.chain'_reverse]
  exact h.imp (fun a b hab hba => hab ⟨hba.2, hba.1⟩)

theorem chain_strip {l : List Char}
    (h : List.Chain' (fun x y => ¬(x = ' ' ∧ y = ' ')) l) :
    List.Chain' (fun x y => ¬(x = ' ' ∧ y = ' ')) (pyStrip l) := by
  unfold pyStrip
  apply chain_swap
  apply List.Chain'.suffix _ (List.dropWhile_suffix _)
  apply chain_swap
  exact List.Chain'.suffix h (List.dropWhile_suffix _)

theorem dropWhile_head_not : ∀ (l : List Char) (c : Char) (t : List Char),
    l.dropWhile isPySpace = c :: t → isPySpace c = false := by
  intro l
  induction l with
  | nil => intro c t h; exact absurd h (by simp)
  | cons a r ih =>
    intro c t h
    by_cases ha : isPySpace a = true
    · rw [List.dropWhile_cons, if_pos ha] at h
      exact ih c t h
    · rw [List.dropWhile_cons, if_neg ha] at h
      obtain ⟨h1, _⟩ := List.cons.inj h
      rw [← h1]
      exact Bool.eq_false_iff.mpr ha

theorem strip_eq_self {l : List Char}
    (h1 : ∀ c t, l = c :: t → isPySpace c = false)
    (h2 : ∀ c, l.getLast? = some c → isPySpace c = false) :
    pyStrip l = l := by
  have e1 : l.dropWhile isPySpace = l := by
    cases l with
    | nil => rfl
    | cons c t =>
      rw [List.dropWhile_cons, if_neg (by
        intro hh
        rw [h1 c t rfl] at hh
        exact Bool.false_ne_true hh)]
  unfold pyStrip
  rw [e1]
  have e2 : l.reverse.dropWhile isPySpace = l.reverse := by
    cases hr : l.reverse with
    | nil => rfl
    | cons c t =>
      rw [List.dropWhile_cons, if_neg (by
        intro hh
        have hlast : l.getLast? = some c := by
          rw [← List.head?_reverse, hr]
          rfl
        rw [h2 c hlast] at hh
        exact Bool.false_ne_true hh)]
  rw [e2, List.reverse_reverse]

theorem suffix_getLast {α : Type} {l1 l2 : List α} (h : l1 <:+ l2)
    (hne : l1 ≠ []) : l2.getLast? = l1.getLast? := by
  obtain ⟨pre, rfl⟩ := h
  exact List.getLast?_append_of_ne_nil _ hne

theorem pyStrip_idem (l : List Char) : pyStrip (pyStrip l) = pyStrip l := by
  apply strip_eq_self
  · intro c t h
    have hhead : ((l.dropWhile isPySpace).reverse.dropWhile isPySpace).getLast?
        = some c := by
      rw [← List.head?_reverse]
      show (pyStrip l).head? = some c
      rw [h]
      rfl
    have hne : (l.dropWhile isPySpace).reverse.dropWhile isPySpace ≠ [] := by
      intro h0
      rw [h0] at hhead
      exact Option.noConfusion hhead
    have hsuf := suffix_getLast
      (List.dropWhile_suffix (l := (l.dropWhile isPySpace).reverse) (p := isPySpace))
      hne
    rw [hhead, List.getLast?_reverse] at hsuf
    cases hdw : l.dropWhile isPySpace with
    | nil =>
      rw [hdw] at hsuf
      exact absurd hsuf.symm (by simp)
    | cons d r =>
      rw [hdw] at hsuf
      have hdc : d = c := by
        have h4 := hsuf.symm
        simp at h4
        exact h4.symm
      rw [← hdc]
      exact dropWhile_head_not l d r hdw
  · intro c hc
    rw [show pyStrip l
        = ((l.dropWhile isPySpace).reverse.dropWhile isPySpace).reverse from rfl,
      List.getLast?_reverse] at hc
    cases hdw : (l.dropWhile isPySpace).reverse.dropWhile isPySpace with
    | nil =>
      rw [hdw] at hc
      exact Option.noConfusion hc
    | cons d r =>
      rw [hdw] at hc
      have : d = c := by
        have := hc
        simp at this
        exact this
      rw [← this]
      exact dropWhile_head_not _ d r hdw

/-! ### Character membership through the pipeline stages -/

theorem camel_mem {l : List Char} : ∀ x ∈ camelIns l, x = ' ' ∨ x ∈ l := by
  cases l with
  | nil => intro x hx; exact absurd hx (by simp [camelIns])
  | cons c rest =>
    intro x hx
    rw [show camelIns (c :: rest)
        = c :: rest.flatMap (fun d => if isAsciiUpper d then [' ', d] else [d])
      from rfl] at hx
    rcases List.mem_cons.mp hx with h1 | h1
    · right
      simp [h1]
    · obtain ⟨d, hd, hxd⟩ := List.mem_flatMap.mp h1
      by_cases hu : isAsciiUpper d = true
      · rw [if_pos hu] at hxd
        rcases List.mem_cons.mp hxd with h2 | h2
        · exact Or.inl h2
        · right
          have : x = d := by simpa using h2
          rw [this]
          simp [hd]
      · rw [if_neg hu] at hxd
        right
        have : x = d := by simpa using hxd
        rw [this]
        simp [hd]

theorem titleAux_keep : ∀ (l : List Char),
    (∀ c ∈ l, keepAlnumSpace c = true) →
    ∀ (b : Bool), ∀ x ∈ titleAux b l, keepAlnumSpace x = true := by
  intro l
  induction l with
  | nil =>
    intro _ b x hx
    exact absurd hx (by simp [titleAux])
  | cons c t ih =>
    intro hl b x hx
    rw [titleAux_cons] at hx
    rcases List.mem_cons.mp hx with h1 | h1
    · subst h1
      by_cases ha : isAsciiAlpha c = true
      · rw [if_pos ha]
        have halpha : isAsciiAlpha (if b then pyLower c else pyUpper c) = true := by
          cases b
          · simp [alpha_pyUpper, ha]
          · simp [alpha_pyLower, ha]
        simp [keepAlnumSpace, isAlnumAscii, halpha]
      · rw [if_neg ha]
        exact hl c (by simp)
    · exact ih (fun y hy => hl y (by simp [hy])) (isAsciiAlpha c) x h1

theorem keep_of_good {c : Char} (h : isAlnumAscii c = true ∨ c = ' ') :
    keepAlnumSpace c = true := by
  rcases h with h1 | h1
  · simp [keepAlnumSpace, h1]
  · rw [h1]
    decide

theorem repUH_eq_self {c : Char} (h : isAlnumAscii c = true ∨ c = ' ') :
    repUnderscoreHyphen c = c := by
  unfold repUnderscoreHyphen
  rw [if_neg ?hcond]
  case hcond =>
    intro hh
    have h2 : c = '_' ∨ c = '-' := by simpa using hh
    rcases h2 with h3 | h3 <;> rw [h3] at h <;>
      rcases h with h4 | h4 <;> exact absurd h4 (by decide)

theorem map_repUH_id {l : List Char}
    (h : ∀ c ∈ l, isAlnumAscii c = true ∨ c = ' ') :
    l.map repUnderscoreHyphen = l := by
  induction l with
  | nil => rfl
  | cons c t ih =>
    rw [List.map_cons, ih (fun x hx => h x (by simp [hx])),
      repUH_eq_self (h c (by simp))]

theorem map_ws_id {l : List Char}
    (h : ∀ c ∈ l, isAlnumAscii c = true ∨ c = ' ') :
    l.map wsToSpace = l := by
  induction l with
  | nil => rfl
  | cons c t ih =>
    rw [List.map_cons, ih (fun x hx => h x (by simp [hx]))]
    rcases h c (by simp) with h1 | h1
    · rw [ws_eq_self (alnum_not_space h1)]
    · rw [h1, show wsToSpace ' ' = ' ' from by decide]

/-! ## Claim theorems -/

/-- C1: the claim is false of the code.  The eval of calculate_kpis runs
with a globals dict lacking a __builtins__ entry, so the file-opening
builtin resolves inside every formula (calcKpisEvalNames), and a
file-reading formula on a calculable KPI is executed and recorded as a
success instead of being rejected; only the separate
CustomKPICalculator.validate_formula path rejects such formulas, and its
restricted namespace (customEvalNames) binds no file or import
capability. -/
theorem C1_eval_context_unrestricted :
    "open" ∈ calcKpisEvalNames ∧
    "open" ∉ customEvalNames ∧
    (calculate_kpis evalOpen dfEmpty leakStatus ["Leak"]).lookup "Leak"
      = some ⟨some (PyVal.str "root:x:0:0"), true, none⟩ ∧
    (validate_formula ["/etc/passwd"] leakFormula).valid = false ∧
    (validate_formula ["/etc/passwd"] leakFormula).error
      = some "Formula contains disallowed operations" := by
  exact ⟨by decide, by decide, by rfl, by rfl, by rfl⟩

/-- C2 counterexample: on the demo dataset the temporal calculator
reports the derived monthly KPI as successfully evaluated for the
January period, while independently re-running the KPI Matching Stage on
the January row subset (what the claim describes, temporalRematchSpec)
finds it non-calculable there: the matching result computed once on the
whole dataset is shared across periods. -/
theorem C2_shared_matching_counterexample :
    demoTemporal.1 = TemporalResult.ok demoPer "MoM" "Order Date" ∧
    demoRematch = TemporalResult.ok rematchPer "MoM" "Order Date" ∧
    (((demoPer.lookup janKey).getD []).lookup "Monthly Revenue Trend").map
        KpiResultData.success = some true ∧
    (((rematchPer.lookup janKey).getD []).lookup "Monthly Revenue Trend").map
        KpiResultData.success = some false := by
  exact ⟨by rfl, by rfl, by rfl, by rfl⟩

/-- C2 amended: the Temporal Calculator evaluates each period on that
period row subset, but it reuses the single matching result
(available_kpis) computed on the whole dataset: every per-period entry
equals calculate_kpis on the period subset with the same available_kpis
map, and every detected period has an entry. -/
theorem C2_amended_per_period_eval_shared_matching (evalFn : EvalFn) (df : DataFrame)
    (avail : List (String × KpiStatus)) (order : List String)
    (per : List (String × List (String × KpiResultData))) (pt dc : String)
    (hok : (calculate_kpis_temporal evalFn df avail order).1
      = TemporalResult.ok per pt dc) :
    (∀ key entry, per.lookup key = some entry →
      ∃ p ∈ periodsOf (add_period_column (detect_date_column df).2 dc pt),
        key = pyStrTimestamp p ∧
        entry = calculate_kpis evalFn
          (filterByPeriod (add_period_column (detect_date_column df).2 dc pt) p)
          avail order) ∧
    (∀ p ∈ periodsOf (add_period_column (detect_date_column df).2 dc pt),
      (per.lookup (pyStrTimestamp p)).isSome) := by
  unfold calculate_kpis_temporal at hok
  rcases hdet : detect_date_column df with ⟨odc, df1⟩
  rw [hdet] at hok
  cases odc with
  | none => simp at hok
  | some dcol =>
    dsimp only at hok
    injection hok with h1 h2 h3
    subst h3
    subst h2
    dsimp only
    subst h1
    constructor
    · intro key entry h
      rcases periodFold_lookup
          (fun p => calculate_kpis evalFn
            (filterByPeriod (add_period_column df1 dcol
              (determine_period_type df1 dcol)) p) avail order)
          (periodsOf (add_period_column df1 dcol (determine_period_type df1 dcol)))
          [] key entry h with h1 | h1
      · exact h1
      · simp at h1
    · intro p hp
      exact periodFold_isSome _ _ _ p hp

theorem C2_amended_per_period_eval_shared_matching_witness :
    demoTemporal.1 = TemporalResult.ok demoPer "MoM" "Order Date" ∧
    (∃ p ∈ periodsOf (add_period_column (detect_date_column demoStatus.2).2
          "Order Date" "MoM"),
        janKey = pyStrTimestamp p ∧
        (demoPer.lookup janKey).getD [] = calculate_kpis evalRev
          (filterByPeriod (add_period_column (detect_date_column demoStatus.2).2
            "Order Date" "MoM") p) demoStatus.1 demoOrder) ∧
    (demoPer.lookup (pyStrTimestamp ⟨2024, 1, 1⟩)).isSome := by
  have hok : (calculate_kpis_temporal evalRev demoStatus.2 demoStatus.1 demoOrder).1
      = TemporalResult.ok demoPer "MoM" "Order Date" := by rfl
  have h := C2_amended_per_period_eval_shared_matching evalRev demoStatus.2
    demoStatus.1 demoOrder demoPer "MoM" "Order Date" hok
  have hl : demoPer.lookup janKey = some ((demoPer.lookup janKey).getD []) := by rfl
  exact ⟨hok, h.1 janKey _ hl, h.2 ⟨2024, 1, 1⟩ (by decide)⟩

/-- C3: for every catalog with distinct KPI names whose dependency graph
is closed and acyclic, build_dependency_graph returns an order that is a
permutation of all KPI names in which every dependency appears strictly
before every KPI depending on it. -/
theorem C3_resolver_topological_order (kpis : List (String × KpiInfo))
    (hk : (gNodes (catGraph kpis)).Nodup)
    (hc : ClosedGraph (catGraph kpis))
    (ha : Acyclic (catGraph kpis)) :
    ∃ l, build_dependency_graph kpis = Except.ok l ∧
      l.Perm (kpis.map Prod.fst) ∧
      ∀ v ∈ l, ∀ d ∈ gDeps (catGraph kpis) v, Before l d v := by
  obtain ⟨hok, hperm⟩ := topo_ok_of_acyclic hk hc ha
  refine ⟨(kahnFinal (catGraph kpis)).sorted, hok, ?_, ?_⟩
  · have he : gNodes (catGraph kpis) = kpis.map Prod.fst := by
      simp [gNodes, catGraph]
    rw [← he]
    exact hperm
  · intro v hv d hd
    exact (kahnFinal_spec hk).1.ord v hv d hd

theorem C3_resolver_topological_order_witness :
    (gNodes (catGraph okCatalog)).Nodup ∧ ClosedGraph (catGraph okCatalog) ∧
    Acyclic (catGraph okCatalog) ∧
    ∃ l, build_dependency_graph okCatalog = Except.ok l ∧
      l.Perm (okCatalog.map Prod.fst) ∧
      ∀ v ∈ l, ∀ d ∈ gDeps (catGraph okCatalog) v, Before l d v := by
  have hnd : (gNodes (catGraph okCatalog)).Nodup := by decide
  have hc : ClosedGraph (catGraph okCatalog) := by
    unfold ClosedGraph
    decide
  have hrank : ∀ v, ∀ d ∈ gDeps (catGraph okCatalog) v, rank0 d < rank0 v := by
    intro v d hd
    have hv : v ∈ gNodes (catGraph okCatalog) :=
      mem_gNodes_of_deps_ne (List.ne_nil_of_mem hd)
    have he : gNodes (catGraph okCatalog) = ["A", "B"] := by decide
    rw [he] at hv
    have hv2 : v = "A" ∨ v = "B" := by simpa using hv
    rcases hv2 with h | h <;> subst h
    · have hda : gDeps (catGraph okCatalog) "A" = [] := by decide
      rw [hda] at hd
      simp at hd
    · have hdb : gDeps (catGraph okCatalog) "B" = ["A"] := by decide
      rw [hdb] at hd
      have : d = "A" := by simpa using hd
      subst this
      decide
  have ha : Acyclic (catGraph okCatalog) := acyclic_of_rank rank0 hrank
  exact ⟨hnd, hc, ha, C3_resolver_topological_order okCatalog hnd hc ha⟩

/-- C4: for every catalog with distinct KPI names whose dependency graph
contains a cycle, build_dependency_graph fails with the
circular-dependency error, so no order is produced and nothing can be
evaluated. -/
theorem C4_cycle_rejected (kpis : List (String × KpiInfo))
    (hk : (gNodes (catGraph kpis)).Nodup) (v : String)
    (hcyc : Relation.TransGen (depRel (catGraph kpis)) v v) :
    build_dependency_graph kpis
      = Except.error "Circular dependency detected in KPIs" := by
  unfold build_dependency_graph
  exact topo_error_of_cycle hk hcyc

theorem C4_cycle_rejected_witness :
    (gNodes (catGraph cycCatalog)).Nodup ∧
    Relation.TransGen (depRel (catGraph cycCatalog)) "A" "A" ∧
    build_dependency_graph cycCatalog
      = Except.error "Circular dependency detected in KPIs" := by
  have h1 : depRel (catGraph cycCatalog) "B" "A" := by
    show "B" ∈ gDeps (catGraph cycCatalog) "A"
    decide
  have h2 : depRel (catGraph cycCatalog) "A" "B" := by
    show "A" ∈ gDeps (catGraph cycCatalog) "B"
    decide
  have hcyc : Relation.TransGen (depRel (catGraph cycCatalog)) "A" "A" :=
    Relation.TransGen.head h2 (Relation.TransGen.single h1)
  exact ⟨by decide, hcyc, C4_cycle_rejected cycCatalog (by decide) "A" hcyc⟩

/-- C5 counterexample: a formula evaluating to NaN is recorded by
calculate_kpis with success true and the NaN as its value; the invalid
numeric result is not reported as a failure there (only the separate
custom-calculator path rejects NaN). -/
theorem C5_nan_success_counterexample :
    (calculate_kpis evalNan dfEmpty nanStatus ["NaN KPI"]).lookup "NaN KPI"
      = some ⟨some PyVal.nan, true, none⟩ := by rfl

/-- C5 amended: calculate_kpis is total over the requested order (every
KPI of the order receives an entry, so a failure never blocks later
KPIs), every unsuccessful entry carries a non-null error, and a formula
whose evaluation raises is recorded as success false with the raised
message; but an invalid numeric result (NaN or infinity) is recorded as
a success by calculate_kpis, and only custom_calculate_kpi reports it as
a failure. -/
theorem C5_amended_failure_handling (evalFn : EvalFn) (df : DataFrame)
    (avail : List (String × KpiStatus)) (order : List String) :
    (∀ k ∈ order, ((calculate_kpis evalFn df avail order).lookup k).isSome) ∧
    (∀ k e, (calculate_kpis evalFn df avail order).lookup k = some e →
      e.success = false → e.error.isSome) ∧
    (∀ (acc : List (String × KpiResultData)) (k : String) (kd : KpiStatus)
        (f msg : String),
      avail.lookup k = some kd → kd.calculable = true →
      kd.kpi_info.formula = some f → ¬ f = "" →
      evalFn (substDeps kd.kpi_info.dependencies acc
        (substPlaceholders kd.matched_columns f)) df acc = EvalOutcome.raised msg →
      evalOneKpi evalFn df avail acc k = ⟨none, false, some msg⟩) ∧
    (∀ (cEval : String → CEvalOutcome) (cols : List String) (formula : String),
      cEval formula = CEvalOutcome.value PyVal.nan →
      (custom_calculate_kpi cEval cols formula).success = false) := by
  refine ⟨?_, ?_, ?_, ?_⟩
  · intro k hk
    exact calcFold_isSome evalFn df avail order [] k (Or.inl hk)
  · intro k e h hs
    refine calcFold_error evalFn df avail order [] ?_ k e h hs
    intro k2 e2 h2 _
    simp at h2
  · intro acc k kd f msg h1 h2 h3 h4 h5
    unfold evalOneKpi
    rw [h1]
    simp only [Option.getD_some]
    rw [h2]
    rw [if_neg (by simp)]
    rw [h3]
    dsimp only
    rw [if_neg h4]
    rw [h5]
  · intro cEval cols formula hnan
    unfold custom_calculate_kpi
    by_cases hv : (validate_formula cols formula).valid = false
    · rw [if_pos hv]
    · rw [if_neg hv]
      rw [hnan]

theorem C5_amended_failure_handling_witness :
    "K" ∈ ["K"] ∧
    ((calculate_kpis evalBoom dfEmpty availK ["K"]).lookup "K").isSome ∧
    evalOneKpi evalBoom dfEmpty availK [] "K" = ⟨none, false, some "KeyError"⟩ ∧
    (custom_calculate_kpi cEvalNan [] "1+1").success = false := by
  have h := C5_amended_failure_handling evalBoom dfEmpty availK ["K"]
  refine ⟨by decide, h.1 "K" (by decide), ?_, ?_⟩
  · exact h.2.2.1 [] "K" ⟨true, [], ⟨some "df[x]", [], []⟩⟩ "df[x]" "KeyError"
      (by rfl) (by rfl) (by rfl) (by decide) (by rfl)
  · exact h.2.2.2 cEvalNan [] "1+1" (by rfl)

/-- C6 counterexample: the column-name normalizer is not idempotent.  On
the input written here, one pass yields a single token whose digit-letter
boundary produced an internal uppercase letter; the second pass, seeing
no space, runs the camel-case split on that letter and yields a
different string. -/
theorem C6_not_idempotent_counterexample :
    normalize_column_name (normalize_column_name "a1b")
      ≠ normalize_column_name "a1b" := by decide

/-- C6 amended: the normalizer is idempotent on every string whose
normalized form contains a space, and more generally whenever the
camel-case split leaves the normalized form unchanged; the only source
of non-idempotence is a space-free normalized token in which the
camel-case split fires again (an uppercase letter after a digit, as in
the counterexample). -/
theorem C6_amended_idempotent_on_spaced_or_camel_fixed (s : String)
    (h : (' ' ∈ (normalize_column_name s).data) ∨
      camelIns (normalize_column_name s).data = (normalize_column_name s).data) :
    normalize_column_name (normalize_column_name s) = normalize_column_name s := by
  set l2 : List Char := (s.data.map repUnderscoreHyphen).filter keepAlnumSpace
    with hl2
  set l3 : List Char := if l2.contains ' ' then l2 else camelIns l2 with hl3
  set l4 : List Char := pyTitle l3 with hl4
  set l5 : List Char := collapseWs l4 with hl5
  have hr : (normalize_column_name s).data = pyStrip l5 := by
    rw [hl5, hl4, hl3, hl2]
    rfl
  have hkeep2 : ∀ c ∈ l2, keepAlnumSpace c = true := by
    intro c hc
    rw [hl2] at hc
    exact List.of_mem_filter hc
  have hkeep3 : ∀ c ∈ l3, keepAlnumSpace c = true := by
    intro c hc
    rw [hl3] at hc
    by_cases hsp : l2.contains ' ' = true
    · rw [if_pos hsp] at hc
      exact hkeep2 c hc
    · rw [if_neg hsp] at hc
      rcases camel_mem c hc with h1 | h1
      · rw [h1]
        decide
      · exact hkeep2 c h1
  have hInv4 : titleAux false l4 = l4 := by
    rw [hl4]
    exact titleAux_idem l3 false
  have hkeep4 : ∀ c ∈ l4, keepAlnumSpace c = true := by
    intro c hc
    rw [hl4] at hc
    exact titleAux_keep l3 hkeep3 false c hc
  have hgood5 : ∀ c ∈ l5, isAlnumAscii c = true ∨ c = ' ' := by
    intro c hc
    rw [hl5] at hc
    have hc2 : c ∈ l4.map wsToSpace := squeeze_subset _ c hc
    obtain ⟨d, hd, hdc⟩ := List.mem_map.mp hc2
    by_cases hsp : isPySpace d = true
    · right
      rw [← hdc]
      unfold wsToSpace
      rw [if_pos hsp]
    · left
      rw [← hdc, ws_eq_self (Bool.eq_false_iff.mpr hsp)]
      have hk := hkeep4 d hd
      rcases (by simpa [keepAlnumSpace, Bool.or_eq_true] using hk :
          isAlnumAscii d = true ∨ isPySpace d = true) with h1 | h1
      · exact h1
      · exact absurd h1 hsp
  have hgoodr : ∀ c ∈ (normalize_column_name s).data,
      isAlnumAscii c = true ∨ c = ' ' := by
    intro c hc
    rw [hr] at hc
    exact hgood5 c (strip_subset hc)
  have hInv5 : titleAux false l5 = l5 := by
    rw [hl5]
    show titleAux false (squeezeSpaces (l4.map wsToSpace))
      = squeezeSpaces (l4.map wsToSpace)
    rw [titleAux_squeeze, titleAux_map_ws, hInv4]
  have hInvr : titleAux false ((normalize_column_name s).data)
      = (normalize_column_name s).data := by
    rw [hr]
    exact titleAux_strip_fix hInv5
  have hchain5 : List.Chain' (fun x y => ¬(x = ' ' ∧ y = ' ')) l5 := by
    rw [hl5]
    exact squeeze_chain _
  have hchainr : List.Chain' (fun x y => ¬(x = ' ' ∧ y = ' '))
      ((normalize_column_name s).data) := by
    rw [hr]
    exact chain_strip hchain5
  have hstripr : pyStrip ((normalize_column_name s).data)
      = (normalize_column_name s).data := by
    rw [hr]
    exact pyStrip_idem l5
  have hmap1 : ((normalize_column_name s).data).map repUnderscoreHyphen
      = (normalize_column_name s).data := map_repUH_id hgoodr
  have hfilt : ((normalize_column_name s).data).filter keepAlnumSpace
      = (normalize_column_name s).data :=
    List.filter_eq_self.mpr (fun c hc => keep_of_good (hgoodr c hc))
  have hws2 : ((normalize_column_name s).data).map wsToSpace
      = (normalize_column_name s).data := map_ws_id hgoodr
  have hsq2 : squeezeSpaces ((normalize_column_name s).data)
      = (normalize_column_name s).data := squeeze_eq_self _ hchainr
  have hstep3 : (if ((normalize_column_name s).data).contains ' ' = true
      then (normalize_column_name s).data
      else camelIns ((normalize_column_name s).data))
      = (normalize_column_name s).data := by
    rcases h with h1 | h1
    · rw [if_pos (by simpa using h1)]
    · by_cases hc : ((normalize_column_name s).data).contains ' ' = true
      · rw [if_pos hc]
      · rw [if_neg hc]
        exact h1
  show String.mk (pyStrip (collapseWs (pyTitle
    (if ((((normalize_column_name s).data).map repUnderscoreHyphen).filter
          keepAlnumSpace).contains ' ' = true
      then (((normalize_column_name s).data).map repUnderscoreHyphen).filter
          keepAlnumSpace
      else camelIns ((((normalize_column_name s).data).map
          repUnderscoreHyphen).filter keepAlnumSpace)))))
    = normalize_column_name s
  rw [hmap1, hfilt, hstep3]
  rw [show pyTitle ((normalize_column_name s).data)
      = titleAux false ((normalize_column_name s).data) from rfl]
  rw [hInvr]
  rw [show collapseWs ((normalize_column_name s).data)
      = squeezeSpaces (((normalize_column_name s).data).map wsToSpace) from rfl]
  rw [hws2, hsq2, hstripr]

theorem C6_amended_idempotent_on_spaced_or_camel_fixed_witness :
    (' ' ∈ (normalize_column_name "order_date").data ∨
      camelIns (normalize_column_name "order_date").data
        = (normalize_column_name "order_date").data) ∧
    normalize_column_name (normalize_column_name "order_date")
      = normalize_column_name "order_date" :=
  ⟨Or.inl (by decide),
   C6_amended_idempotent_on_spaced_or_camel_fixed "order_date"
     (Or.inl (by decide))⟩

/-- C7 counterexample: in the backend engine cited by the claim, fuzzy
matching is disabled inside match_base_kpis (only the LLM mapping is
consulted), so a base KPI whose placeholder scores 100 against an
available column under the fuzzy scorer is still marked calculable false
when the oracle mapping is absent. -/
theorem C7_fuzzy_disabled_counterexample :
    (∀ kp ∈ totRevCatalog, ∀ ph ∈ kp.2.columns,
      ∃ c ∈ normalize_columns ["Total Sales"],
        55 ≤ eqScorer (normalize_column_name ph) c) ∧
    (match_base_kpis ["Total Sales"] totRevCatalog []).lookup "Total Revenue"
      = some ⟨false, [("Total Sales", none)], ⟨some "sum", ["Total Sales"], []⟩⟩ := by
  exact ⟨by decide, by rfl⟩

/-- C7 amended: the fuzzy-only guarantee holds in the legacy engine
(modules/KPI_Module/KPI_Engine.py): with the semantic layer disabled, a
base KPI whose every placeholder reaches the threshold under the scorer
against some normalized column is marked calculable true; the backend
engine has fuzzy matching disabled and relies on the LLM mapping alone.
-/
theorem C7_amended_legacy_fuzzy_calculable (scorer : String → String → Nat)
    (column_names : List String) (base_kpis : List (String × KpiInfo))
    (threshold : Nat)
    (h : ∀ kp ∈ base_kpis, ∀ ph ∈ kp.2.columns,
      ∃ c ∈ normalize_columns column_names,
        threshold ≤ scorer (normalize_column_name ph) c) :
    ∀ p ∈ Legacy.match_base_kpis scorer column_names base_kpis threshold none,
      p.2.calculable = true :=
  legacy_base_calculable scorer column_names base_kpis threshold h

theorem C7_amended_legacy_fuzzy_calculable_witness :
    (∀ kp ∈ totRevCatalog, ∀ ph ∈ kp.2.columns,
      ∃ c ∈ normalize_columns ["Total Sales"],
        55 ≤ eqScorer (normalize_column_name ph) c) ∧
    (Legacy.match_base_kpis eqScorer ["Total Sales"] totRevCatalog 55 none).all
      (fun p => p.2.calculable) = true := by
  have hh : ∀ kp ∈ totRevCatalog, ∀ ph ∈ kp.2.columns,
      ∃ c ∈ normalize_columns ["Total Sales"],
        55 ≤ eqScorer (normalize_column_name ph) c := by decide
  refine ⟨hh, List.all_eq_true.mpr ?_⟩
  intro p hp
  exact C7_amended_legacy_fuzzy_calculable eqScorer ["Total Sales"] totRevCatalog
    55 hh p hp

/-- C8: every derived KPI surviving match_derived_kpis is calculable and
each of its declared dependencies has a status in the base map that is
itself calculable; contrapositively, a derived KPI with a non-calculable
or absent dependency is never output with calculable true. -/
theorem C8_derived_needs_calculable_deps (column_names : List String)
    (derived_kpis : List (String × KpiInfo))
    (base_status : List (String × KpiStatus)) (df : DataFrame) :
    ∀ p ∈ (match_derived_kpis column_names derived_kpis base_status df).1,
      p.2.calculable = true ∧
      ∀ dep ∈ p.2.kpi_info.dependencies,
        ∃ s, base_status.lookup dep = some s ∧ s.calculable = true := by
  intro p hp
  have h := match_derived_deps_ok column_names derived_kpis base_status df p hp
  refine ⟨h.1, fun dep hdep => ?_⟩
  have hd := h.2 dep hdep
  unfold depCalculable at hd
  cases hl : base_status.lookup dep with
  | none =>
    rw [hl] at hd
    simp at hd
  | some s =>
    rw [hl] at hd
    simp at hd
    exact ⟨s, rfl, hd⟩

theorem C8_derived_needs_calculable_deps_witness :
    ("D", c8DStatus) ∈ (match_derived_kpis [] c8Derived c8Base dfEmpty).1 ∧
    c8DStatus.calculable = true ∧
    ∃ s, c8Base.lookup "A" = some s ∧ s.calculable = true := by
  have hmem : ("D", c8DStatus) ∈ (match_derived_kpis [] c8Derived c8Base dfEmpty).1 := by
    decide
  have h := C8_derived_needs_calculable_deps [] c8Derived c8Base dfEmpty
    ("D", c8DStatus) hmem
  exact ⟨hmem, h.1, h.2 "A" (by decide)⟩

/-- C9 counterexample: the dataset is not left unchanged.  Both
detect_date_column (run by the Temporal Calculator) and
has_minimum_time_coverage (run by the Matching Stage on monthly/weekly
KPIs) convert the scanned date column of the caller dataframe to
datetime in place. -/
theorem C9_caller_df_mutated_counterexample :
    (detect_date_column dfDates).2 ≠ dfDates ∧
    (has_minimum_time_coverage dfDates "Order Date" "month" 2).2 ≠ dfDates := by
  exact ⟨by decide, by decide⟩

/-- C9 amended: the in-place mutation is bounded.  The Temporal
Calculator leaves the caller dataframe exactly as detect_date_column
leaves it (the period column is added to a copy); detect_date_column
preserves all column names and every column whose name carries no date
hint; has_minimum_time_coverage preserves all column names and every
column other than the scanned one. -/
theorem C9_amended_mutation_scope (evalFn : EvalFn) (df : DataFrame)
    (avail : List (String × KpiStatus)) (order : List String)
    (c p : String) (n : Nat) :
    (calculate_kpis_temporal evalFn df avail order).2 = (detect_date_column df).2 ∧
    ((detect_date_column df).2).colNames = df.colNames ∧
    (∀ col ∈ df.cols, ¬ dateNameHint col.name →
      col ∈ ((detect_date_column df).2).cols) ∧
    ((has_minimum_time_coverage df c p n).2).colNames = df.colNames ∧
    (∀ col ∈ df.cols, col.name ≠ c →
      col ∈ ((has_minimum_time_coverage df c p n).2).cols) :=
  ⟨temporal_caller_df evalFn df avail order, detect_names df,
   fun col hm hnh => @detect_preserve df col hm hnh, has_min_names df c p n,
   fun col hm hne => @has_min_preserve df c col p n hm hne⟩

theorem C9_amended_mutation_scope_witness :
    (calculate_kpis_temporal evalRev demoDf demoStatus.1 demoOrder).2
      = (detect_date_column demoDf).2 ∧
    revCol ∈ ((detect_date_column demoDf).2).cols ∧
    revCol ∈ ((has_minimum_time_coverage demoDf "Order Date" "month" 2).2).cols := by
  have h := C9_amended_mutation_scope evalRev demoDf demoStatus.1 demoOrder
    "Order Date" "month" 2
  exact ⟨h.1, h.2.2.1 revCol (by decide) (by decide),
    h.2.2.2.2 revCol (by decide) (by decide)⟩

/-- C10: dependency satisfaction of derived KPIs is checked only against
the base-KPI status map, which never contains a derived KPI; so a
derived KPI naming another derived KPI (one with dependencies of its
own) among its dependencies fails the check, is marked non-calculable,
is dropped by the filter, and is absent from the match_kpis result. -/
theorem C10_derived_dep_on_derived_dropped (column_names : List String)
    (combined : List (String × KpiInfo)) (df : DataFrame)
    (llm_mapping : List (String × Option String))
    (hk : (combined.map Prod.fst).Nodup)
    (name d : String) (info dinfo : KpiInfo)
    (hm : (name, info) ∈ combined) (hd : d ∈ info.dependencies)
    (hdm : (d, dinfo) ∈ combined) (hddep : dinfo.dependencies ≠ []) :
    (match_kpis column_names combined df llm_mapping).1.lookup name = none := by
  have hinfo_ne : info.dependencies ≠ [] := by
    intro h0
    rw [h0] at hd
    simp at hd
  unfold match_kpis
  dsimp only
  have hbase_keys : ∀ kp ∈ combined.filter (fun p => p.2.dependencies.isEmpty),
      kp.1 ≠ name := by
    intro kp hkp he
    have hkpc : kp ∈ combined := List.mem_of_mem_filter hkp
    have hfp : kp.2.dependencies.isEmpty = true := by
      simpa using List.of_mem_filter hkp
    have he2 : (name, kp.2) ∈ combined := by
      rw [← he]
      exact hkpc
    have hkp2 : kp.2 = info := nodup_key_unique hk he2 hm
    rw [hkp2, List.isEmpty_iff] at hfp
    exact hinfo_ne hfp
  have hbase_keys_d : ∀ kp ∈ combined.filter (fun p => p.2.dependencies.isEmpty),
      kp.1 ≠ d := by
    intro kp hkp he
    have hkpc : kp ∈ combined := List.mem_of_mem_filter hkp
    have hfp : kp.2.dependencies.isEmpty = true := by
      simpa using List.of_mem_filter hkp
    have he2 : (d, kp.2) ∈ combined := by
      rw [← he]
      exact hkpc
    have hkp2 : kp.2 = dinfo := nodup_key_unique hk he2 hdm
    rw [hkp2, List.isEmpty_iff] at hfp
    exact hddep hfp
  have hbs_d : (match_base_kpis column_names
      (combined.filter (fun p => p.2.dependencies.isEmpty)) llm_mapping).lookup d
      = none := match_base_lookup_none hbase_keys_d
  have hdc : depCalculable (match_base_kpis column_names
      (combined.filter (fun p => p.2.dependencies.isEmpty)) llm_mapping) d = false := by
    unfold depCalculable
    rw [hbs_d]
    rfl
  have hall : info.dependencies.all (fun dep => depCalculable (match_base_kpis
      column_names (combined.filter (fun p => p.2.dependencies.isEmpty)) llm_mapping)
      dep) = false := by
    rcases Bool.eq_false_or_eq_true (info.dependencies.all (fun dep =>
      depCalculable (match_base_kpis column_names
        (combined.filter (fun p => p.2.dependencies.isEmpty)) llm_mapping) dep))
      with h0 | h0
    · exfalso
      have := List.all_eq_true.mp h0 d hd
      rw [hdc] at this
      exact Bool.false_ne_true this
    · exact h0
  have hinv : ∀ (items : List (String × KpiInfo)),
      (∀ kp ∈ items, kp ∈ combined) →
      ∀ (acc : List (String × KpiStatus) × DataFrame),
      (∀ q ∈ acc.1, q.1 = name → q.2.calculable = false) →
      ∀ q ∈ (items.foldl (derivedStep column_names (match_base_kpis column_names
        (combined.filter (fun p => p.2.dependencies.isEmpty)) llm_mapping)) acc).1,
        q.1 = name → q.2.calculable = false := by
    intro items
    induction items with
    | nil =>
      intro _ acc hacc q hq
      exact hacc q hq
    | cons kp rest ih =>
      intro hsub acc hacc q hq
      rw [List.foldl_cons] at hq
      refine ih (fun x hx => hsub x (by simp [hx])) _ ?_ q hq
      intro q2 hq2 hqname
      rcases derivedStep_mem hq2 with h1 | h1
      · exact hacc q2 h1 hqname
      · obtain ⟨hq1, hki, himp⟩ := h1
        have hkpn : kp.1 = name := by rw [← hq1, hqname]
        have hkpc : kp ∈ combined := hsub kp (by simp)
        have he2 : (name, kp.2) ∈ combined := by
          rw [← hkpn]
          exact hkpc
        have hkp2 : kp.2 = info := nodup_key_unique hk he2 hm
        rcases Bool.eq_false_or_eq_true q2.2.calculable with h0 | h0
        · exfalso
          have hcond := himp h0
          rw [hkp2, hall] at hcond
          exact Bool.false_ne_true hcond
        · exact h0
  have hders : ∀ q ∈ (match_derived_kpis column_names
      (combined.filter (fun p => !p.2.dependencies.isEmpty))
      (match_base_kpis column_names
        (combined.filter (fun p => p.2.dependencies.isEmpty)) llm_mapping) df).1,
      q.1 ≠ name := by
    intro q hq he
    unfold match_derived_kpis at hq
    have hf := List.mem_filter.mp hq
    have hcal : q.2.calculable = true := by simpa using hf.2
    have hsubs : ∀ kp ∈ combined.filter (fun p => !p.2.dependencies.isEmpty),
        kp ∈ combined := fun kp hkp => List.mem_of_mem_filter hkp
    have := hinv (combined.filter (fun p => !p.2.dependencies.isEmpty)) hsubs
      ([], df) (by intro q2 hq2; simp at hq2) q hf.1 he
    rw [hcal] at this
    exact Bool.false_ne_true this.symm
  cases hlook : (pyDictMerge (match_base_kpis column_names
      (combined.filter (fun p => p.2.dependencies.isEmpty)) llm_mapping)
      (match_derived_kpis column_names
        (combined.filter (fun p => !p.2.dependencies.isEmpty))
        (match_base_kpis column_names
          (combined.filter (fun p => p.2.dependencies.isEmpty)) llm_mapping)
        df).1).lookup name with
  | none => rfl
  | some e =>
    exfalso
    unfold pyDictMerge at hlook
    rcases foldInsert_lookup Prod.fst Prod.snd _ _ name e hlook with h1 | h1
    · obtain ⟨x, hx, hk2, _⟩ := h1
      exact hders x hx hk2.symm
    · have hn := @match_base_lookup_none column_names
        (combined.filter (fun p => p.2.dependencies.isEmpty)) llm_mapping name
        hbase_keys
      rw [hn] at h1
      exact Option.noConfusion h1

theorem C10_derived_dep_on_derived_dropped_witness :
    (c10Catalog.map Prod.fst).Nodup ∧
    ("D2", (⟨some "f2", [], ["D1"]⟩ : KpiInfo)) ∈ c10Catalog ∧
    "D1" ∈ (⟨some "f2", [], ["D1"]⟩ : KpiInfo).dependencies ∧
    ("D1", (⟨some "f1", [], ["A"]⟩ : KpiInfo)) ∈ c10Catalog ∧
    (⟨some "f1", [], ["A"]⟩ : KpiInfo).dependencies ≠ [] ∧
    (match_kpis [] c10Catalog dfEmpty []).1.lookup "D2" = none := by
  refine ⟨by decide, by decide, by decide, by decide, by decide, ?_⟩
  exact C10_derived_dep_on_derived_dropped [] c10Catalog dfEmpty [] (by decide)
    "D2" "D1" ⟨some "f2", [], ["D1"]⟩ ⟨some "f1", [], ["A"]⟩ (by decide) (by decide)
    (by decide) (by decide)

end KpiEngine
